import Mathlib

/-!
Verification of the tasm-lib snippet-composition infrastructure: the Linker
(snippet import, deterministic export, static memory allocator `kmalloc`), the
Object Navigator (derived field accessors and record decoding), and the
benchmark harness.  Machine words are elements of the Oxfoi prime field,
modelled as natural numbers with explicit reduction modulo `bfePrime`.
-/

namespace Tasm

/-- The order of the field of `BFieldElement`s: 2^64 - 2^32 + 1. -/
def bfePrime : Nat := 18446744069414584321

/-- Labelled instructions, restricted to the opcodes emitted by the object
navigator's derive macro (source: `derive_tasm_object/src/lib.rs`).  `push`
carries its immediate operand reduced modulo `bfePrime`. -/
inductive Instr where
  | push (c : Nat)
  | add
  | pop1
  | swap1
  | readMem1
  deriving DecidableEq

/-- The Linker session state (source: `Library` in `tasm-lib/src/library.rs`):
a map from entrypoint names to snippet bodies, kept as an association list in
insertion order, plus the static allocator's cursor `free_pointer`. -/
structure Library where
  seenSnippets : List (String × List Instr)
  freePointer : Nat
  deriving DecidableEq

/-- `STATIC_MEMORY_START_ADDRESS = BFieldElement::new(BFieldElement::MAX)`,
the canonical representative of -1, i.e. `bfePrime - 1`. -/
def staticMemoryStartAddress : Nat := bfePrime - 1

/-- `Library::new` (source: `library.rs`). -/
def Library.new : Library :=
  { seenSnippets := [], freePointer := staticMemoryStartAddress }

/-- `Library::kmalloc` (source: `library.rs` lines 109-114).  The address is
`free_pointer - (num_words as u64 - 1)` and the new free pointer is
`free_pointer - num_words`, both in the field.  The `u64` subtraction
`num_words as u64 - 1` underflows (panics under overflow checking) when
`num_words = 0`, hence the `Option`. -/
def Library.kmalloc (lib : Library) (numWords : Nat) : Option (Nat × Library) :=
  if numWords = 0 then
    none
  else
    let address := (lib.freePointer + (bfePrime - (numWords - 1) % bfePrime)) % bfePrime
    some (address,
      { lib with freePointer := (lib.freePointer + (bfePrime - numWords % bfePrime)) % bfePrime })

/-- Run a sequence of `kmalloc` calls, returning the addresses in order. -/
def Library.allocAll (lib : Library) : List Nat → Option (List Nat × Library)
  | [] => some ([], lib)
  | n :: ns =>
    match lib.kmalloc n with
    | none => none
    | some (a, lib1) =>
      match lib1.allocAll ns with
      | none => none
      | some (as_, lib2) => some (a :: as_, lib2)

/-- The set of addresses claimed by an allocation of `n` words returned at
address `a` (addresses taken modulo the word range). -/
def inRegion (a n x : Nat) : Prop := ∃ j, j < n ∧ x = (a + j) % bfePrime

/-- Lexicographic comparison of character sequences by code point; on the
ASCII entrypoint names used throughout the library this is exactly Rust's
`String` ordering (byte-lexicographic, which agrees with code-point order on
valid UTF-8). -/
def charListLeb : List Char → List Char → Bool
  | [], _ => true
  | _ :: _, [] => false
  | c :: cs, d :: ds =>
    if c.toNat < d.toNat then true
    else if d.toNat < c.toNat then false
    else charListLeb cs ds

/-- Alphabetical (lexicographic) order on entrypoint names. -/
def strLe (a b : String) : Prop := charListLeb a.data b.data = true

instance : DecidableRel strLe := fun a b =>
  inferInstanceAs (Decidable (charListLeb a.data b.data = true))

/-- `HashMap::contains_key` on the snippet map. -/
def Library.containsKey (lib : Library) (name : String) : Bool :=
  lib.seenSnippets.any (fun kv => kv.1 == name)

/-- `HashMap::insert` on the snippet map: replaces the body if the entrypoint
is already present, otherwise appends a new entry. -/
def Library.insertSnippet (lib : Library) (name : String) (body : List Instr) :
    Library :=
  if lib.containsKey name then
    { lib with seenSnippets :=
        lib.seenSnippets.map (fun kv => if kv.1 == name then (name, body) else kv) }
  else
    { lib with seenSnippets := lib.seenSnippets ++ [(name, body)] }

/-- `Library::import` (source: `library.rs` lines 60-70), driven by a
generator table and a fuel bound standing in for the unbounded Rust call
stack.  Mirrors the source exactly: the entrypoint is looked up first; on a
miss the generator body runs (recursively importing its dependencies) and the
produced body is inserted only *after* the generator returns.  The entrypoint
name is returned either way. -/
def importFuel (g : String → List String × List Instr) :
    Nat → Library → String → Option (String × Library)
  | 0, _, _ => none
  | fuel + 1, lib, name =>
    if lib.containsKey name then some (name, lib)
    else
      match (g name).1.foldlM (fun l d => (importFuel g fuel l d).map Prod.snd) lib with
      | none => none
      | some lib1 => some (name, lib1.insertSnippet name (g name).2)

/-- Import a list of root snippets in order into a session. -/
def importMany (g : String → List String × List Instr) (fuel : Nat)
    (lib : Library) (names : List String) : Option Library :=
  names.foldlM (fun l n => (importFuel g fuel l n).map Prod.snd) lib

/-- `Library::get_all_snippet_names`: the imported entrypoint names, sorted
alphabetically. -/
def Library.getAllSnippetNames (lib : Library) : List String :=
  List.insertionSort strLe (lib.seenSnippets.map Prod.fst)

/-- `Library::all_external_dependencies`: all snippet bodies, sorted by
entrypoint name. -/
def Library.allExternalDependencies (lib : Library) : List (List Instr) :=
  (List.insertionSort (fun a b => strLe a.1 b.1) lib.seenSnippets).map Prod.snd

/-- `Library::all_imports`: the concatenation of `all_external_dependencies`. -/
def Library.allImports (lib : Library) : List Instr :=
  lib.allExternalDependencies.flatten

/-- A two-snippet dependency cycle: `a`'s generator imports `b` and `b`'s
generator imports `a`. -/
def cyclicGen : String → List String × List Instr := fun name =>
  if name = "a" then (["b"], [])
  else if name = "b" then (["a"], [])
  else ([], [])

/-- An acyclic generator table modelled on the `DummyTestSnippet` fixtures of
`library.rs`: `a` imports `b` and `c`, `b` imports `c`, and `x` is an
independent snippet. -/
def dummyGen : String → List String × List Instr := fun name =>
  if name = "a" then (["b", "c"], [Instr.push 1])
  else if name = "b" then (["c"], [Instr.push 2])
  else if name = "c" then ([], [Instr.push 3])
  else if name = "x" then ([], [Instr.push 4])
  else ([], [])

/-- A rank function witnessing that `dummyGen` is acyclic. -/
def dummyRank : String → Nat := fun name =>
  if name = "a" then 2 else if name = "b" then 1 else 0

/-- The session obtained by importing the roots `x` then `b` of `dummyGen`. -/
def libRun₁ : Library :=
  ⟨[("x", [Instr.push 4]), ("c", [Instr.push 3]), ("b", [Instr.push 2])],
    staticMemoryStartAddress⟩

/-- The session obtained by importing the roots `b` then `x` of `dummyGen`:
same snippet set as `libRun₁`, different insertion order. -/
def libRun₂ : Library :=
  ⟨[("c", [Instr.push 3]), ("b", [Instr.push 2]), ("x", [Instr.push 4])],
    staticMemoryStartAddress⟩

/-- One field of a record schema, as seen by the `TasmObject` derive macro:
its (explicit or positional) name, `BFieldCodec::static_length()` for its
type (`some size` for statically sized fields, `none` for dynamically sized
ones), whether it carries the `#[tasm_object(ignore)]` marker, and the word
encoding of its type's `Default::default()` (used for ignored fields on
decode). -/
structure FieldSpec where
  name : String
  staticLength : Option Nat
  ignored : Bool
  dflt : List Nat
  deriving DecidableEq

/-- The navigator's field processing order (source:
`generate_tokens_for_struct_with_named_fields`): declared fields reversed,
ignored fields excluded; index 0 is the last declared non-ignored field. -/
def activeFields (schema : List FieldSpec) : List FieldSpec :=
  schema.reverse.filter (fun f => !f.ignored)

/-- The processing-order list of `static_length` classifications. -/
def activeKinds (schema : List FieldSpec) : List (Option Nat) :=
  (activeFields schema).map (fun f => f.staticLength)

/-- Source: `generate_tasm_for_extend_field_start_with_jump_amount`.
Stack effect `_ *field_start ↦ _ *field_start jump_amount`. -/
def jumperCode (staticLength : Option Nat) : List Instr :=
  match staticLength with
  | some size => [Instr.push size]
  | none =>
    [Instr.readMem1, Instr.push 1, Instr.add, Instr.swap1, Instr.push 1,
      Instr.add]

/-- Source: `generate_tasm_for_getter_postprocess`.
Stack effect `_ *field_start jump_amount ↦ _ *field`. -/
def getterPostprocessCode (staticLength : Option Nat) : List Instr :=
  match staticLength with
  | some _ => [Instr.pop1]
  | none => [Instr.pop1, Instr.push 1, Instr.add]

/-- Source: `generate_tasm_for_sizer_postprocess`.
Stack effect `_ *field_start jump_amount ↦ _ *field field_size`.
`push (-1)` is `push (bfePrime - 1)`. -/
def sizerPostprocessCode (staticLength : Option Nat) : List Instr :=
  match staticLength with
  | some _ => []
  | none =>
    [Instr.push (bfePrime - 1), Instr.add, Instr.swap1, Instr.push 1,
      Instr.add, Instr.swap1]

/-- `get_field_start_with_jump_distance` body for the field at the head of
the *reversed* processing prefix: the clause for index 0 is just the jumper;
for a later index it is the previous field's start-with-jump code, an `add`,
and this field's jumper (source: `get_current_field_start_with_jump` /
`field_starter_clauses` in `derive_tasm_object/src/lib.rs`). -/
def startWithJumpRev : List (Option Nat) → List Instr
  | [] => []
  | [k] => jumperCode k
  | k :: k' :: rest =>
    startWithJumpRev (k' :: rest) ++ [Instr.add] ++ jumperCode k

/-- The `get_field_start_with_jump_distance` match arm for processing index
`i`. -/
def startWithJumpIdx (ks : List (Option Nat)) (i : Nat) : List Instr :=
  startWithJumpRev ((ks.take (i + 1)).reverse)

/-- Resolve a field name to its processing index, first match winning (the
generated Rust `match` on the field-name string); `none` models the
`panic!("Cannot match on field name ...")` arm. -/
def fieldIndexOf : List FieldSpec → String → Option Nat
  | [], _ => none
  | f :: fs, nm =>
    if f.name == nm then some 0
    else (fieldIndexOf fs nm).map (· + 1)

/-- `TasmObject::get_field_start_with_jump_distance`. -/
def getFieldStartWithJumpDistance (schema : List FieldSpec) (nm : String) :
    Option (List Instr) :=
  match fieldIndexOf (activeFields schema) nm with
  | some i => some (startWithJumpIdx (activeKinds schema) i)
  | none => none

/-- `TasmObject::get_field`: the start-with-jump chain followed by the getter
postprocess of the resolved field. -/
def getFieldCode (schema : List FieldSpec) (nm : String) :
    Option (List Instr) :=
  match fieldIndexOf (activeFields schema) nm with
  | some i =>
    some (startWithJumpIdx (activeKinds schema) i
      ++ getterPostprocessCode ((activeKinds schema).getD i none))
  | none => none

/-- `TasmObject::get_field_with_size`. -/
def getFieldWithSizeCode (schema : List FieldSpec) (nm : String) :
    Option (List Instr) :=
  match fieldIndexOf (activeFields schema) nm with
  | some i =>
    some (startWithJumpIdx (activeKinds schema) i
      ++ sizerPostprocessCode ((activeKinds schema).getD i none))
  | none => none

/-- Semantics of the five instructions the navigator emits, on a stack (head
is top of stack) and a word-valued memory.  Modelled from the Triton VM ISA
as documented at the use sites (e.g. `list/unsafeimplu32/push.rs`):
`read_mem 1` at pointer `p` pushes the word at `p` and leaves `p - 1` on
top.  Stack underflow is `none`. -/
def execInstr (mem : Nat → Nat) : Instr → List Nat → Option (List Nat)
  | Instr.push c, st => some ((c % bfePrime) :: st)
  | Instr.add, a :: b :: st => some (((a + b) % bfePrime) :: st)
  | Instr.add, _ => none
  | Instr.pop1, _ :: st => some st
  | Instr.pop1, _ => none
  | Instr.swap1, a :: b :: st => some (b :: a :: st)
  | Instr.swap1, _ => none
  | Instr.readMem1, p :: st =>
    some (((p + (bfePrime - 1)) % bfePrime) :: (mem p % bfePrime) :: st)
  | Instr.readMem1, _ => none

/-- Run a straight-line instruction sequence. -/
def execInstrs (mem : Nat → Nat) (code : List Instr) (st : List Nat) :
    Option (List Nat) :=
  code.foldlM (fun s i => execInstr mem i s) st

/-- Modelled from the spec: the encoding of one (non-ignored) field — a
statically sized field contributes exactly its payload words, a dynamically
sized field is preceded by a one-word length prefix holding its payload word
count ("size recorded as a one-word length prefix immediately preceding the
field's data", spec §3).  The codec itself (`BFieldCodec`) is an external
crate, out of scope per spec §1/§6. -/
def encodeFieldP (p : FieldSpec × List Nat) : List Nat :=
  match p.1.staticLength with
  | some _ => p.2
  | none => p.2.length :: p.2

/-- Concatenated encoding of a list of fields in processing order. -/
def encodeFields (l : List (FieldSpec × List Nat)) : List Nat :=
  (l.map encodeFieldP).flatten

/-- The number of memory words a field occupies (payload plus length prefix
for dynamic fields). -/
def footprintP (p : FieldSpec × List Nat) : Nat := (encodeFieldP p).length

/-- A record value: the declared fields with their payload word sequences. -/
def layoutOf (obj : List (FieldSpec × List Nat)) :
    List (FieldSpec × List Nat) :=
  obj.reverse.filter (fun p => !p.1.ignored)

/-- Modelled from the spec: a record value encodes its non-ignored fields in
reverse declaration order (`encode_to_memory` of `crate::memory` writes
`value.encode()` at the address; the field order invariant is spec §3). -/
def encodeObject (obj : List (FieldSpec × List Nat)) : List Nat :=
  encodeFields (layoutOf obj)

/-- The schema of a record value. -/
def schemaOf (obj : List (FieldSpec × List Nat)) : List FieldSpec :=
  obj.map Prod.fst

/-- Memory holding the word list `ws` from address `addr` upward; all other
addresses read as zero (sparse `HashMap` semantics). -/
def memOf (addr : Nat) (ws : List Nat) : Nat → Nat :=
  fun x => if addr ≤ x then ws.getD (x - addr) 0 else 0

/-- The jump amount the jumper code computes at field start `a`: the static
size, or one plus the length prefix read from memory at `a`. -/
def jumpValue (mem : Nat → Nat) (a : Nat) : Option Nat → Nat
  | some size => size % bfePrime
  | none => (mem a % bfePrime + 1) % bfePrime

/-- Reference chain for `startWithJumpRev`: the field start and jump amount
left on the stack, head of the list being the current field. -/
def chaseRev (mem : Nat → Nat) (a : Nat) : List (Option Nat) → Nat × Nat
  | [] => (a, 0)
  | [k] => (a, jumpValue mem a k)
  | k :: k' :: rest =>
    let p := chaseRev mem a (k' :: rest)
    let s := (p.2 + p.1) % bfePrime
    (s, jumpValue mem s k)

/-- Source: the `decode_iter` body generated by `get_field_decoder` driven by
a `MemoryIter` (`decode_from_memory`): for each field in processing order,
take the static length or read one prefix word, consume exactly that many
words from memory, and hand them to the field type's decoder (the identity on
payload word sequences in this model).  Returns the decoded payloads and the
final cursor address. -/
def decodeFieldsMem (mem : Nat → Nat) :
    List (Option Nat) → Nat → Option (List (List Nat) × Nat)
  | [], a => some ([], a)
  | k :: ks, a =>
    let la : Nat × Nat :=
      match k with
      | some s => (s, a)
      | none => (mem a % bfePrime, (a + 1) % bfePrime)
    let ws := (List.range la.1).map
      (fun j => mem ((la.2 + j) % bfePrime) % bfePrime)
    match decodeFieldsMem mem ks ((la.2 + la.1) % bfePrime) with
    | none => none
    | some r => some (ws :: r.1, r.2)

/-- Source: the `self_builder` of the derive macro — the record is rebuilt in
declaration order, decoded values filling the non-ignored fields and
`Default::default()` filling the ignored ones. -/
def rebuild : List FieldSpec → List (List Nat) →
    Option (List (FieldSpec × List Nat))
  | [], [] => some []
  | [], _ :: _ => none
  | f :: fs, vs =>
    if f.ignored then
      match rebuild fs vs with
      | none => none
      | some rest => some ((f, f.dflt) :: rest)
    else
      match vs with
      | [] => none
      | v :: vs' =>
        match rebuild fs vs' with
        | none => none
        | some rest => some ((f, v) :: rest)

/-- `TasmObject::decode_from_memory` for a record: decode the fields in
processing order, then rebuild the record in declaration order. -/
def decodeObject (schema : List FieldSpec) (mem : Nat → Nat) (addr : Nat) :
    Option (List (FieldSpec × List Nat)) :=
  match decodeFieldsMem mem (activeKinds schema) addr with
  | none => none
  | some r => rebuild schema r.1.reverse

/-- The record built from a value by replacing every ignored field's payload
with its default: what decoding an encoded value reconstructs. -/
def maskIgnored (obj : List (FieldSpec × List Nat)) :
    List (FieldSpec × List Nat) :=
  obj.map (fun p => if p.1.ignored then (p.1, p.1.dflt) else p)

/-- The concrete schema of spec §8 scenario 1: `[a: dynamic, b: static(1)]`
in declaration order. -/
def fieldA : FieldSpec := ⟨"a", none, false, []⟩

def fieldB : FieldSpec := ⟨"b", some 1, false, []⟩

/-- A concrete record for that schema: `a` has payload `[5, 7]`, `b` holds
`[9]`; its encoding at address 100 is `[9, 2, 5, 7]`. -/
def cexObj : List (FieldSpec × List Nat) := [(fieldA, [5, 7]), (fieldB, [9])]

/-- A field carrying the `#[tasm_object(ignore)]` marker, with default value
`[0, 0]`. -/
def fieldI : FieldSpec := ⟨"i", some 2, true, [0, 0]⟩

/-- A record with an ignored field in the middle. -/
def igObj₁ : List (FieldSpec × List Nat) :=
  [(fieldA, [5, 7]), (fieldI, [3, 4]), (fieldB, [9])]

/-- The same record with different (to-be-discarded) ignored-field bytes. -/
def igObj₂ : List (FieldSpec × List Nat) :=
  [(fieldA, [5, 7]), (fieldI, [8, 1]), (fieldB, [9])]

/-- The workload classes of the benchmark harness (source:
`snippet_bencher::BenchmarkCase`, modelled from the spec and its use in
`traits/function.rs`). -/
inductive BenchmarkCase where
  | commonCase
  | worstCase
  deriving DecidableEq

/-- The counters `execute_bench` reports (source: `linker::execute_bench`,
modelled from its use in `traits/function.rs`). -/
structure BenchmarkExecResult where
  cycleCount : Nat
  hashTableHeight : Nat
  u32TableHeight : Nat

/-- One persisted benchmark record (source: `snippet_bencher::BenchmarkResult`,
modelled from its construction in `traits/function.rs`). -/
structure BenchmarkResult where
  name : String
  clockCycleCount : Nat
  hashTableHeight : Nat
  u32TableHeight : Nat
  workloadCase : BenchmarkCase

/-- An initial machine state: stack and memory. -/
def VmState : Type := List Nat × (Nat → Nat)

/-- The parts of a `Function` the benchmark routine touches: the entrypoint,
the seeded initial-state generator (with optional workload class), and the
reference `rust_shadow` implementation. -/
structure FunctionShape where
  entrypoint : String
  pseudorandomInitialState : Nat → Option BenchmarkCase → VmState
  rustShadow : VmState → VmState

/-- `ShadowedFunction::bench` (source: `traits/function.rs` lines 130-158):
for each of the two workload classes, draw a seed, generate the initial
state, run the real machine once (`exec`, standing for `execute_bench` on the
linked program) and record the counters keyed by entrypoint name and class.
The shadow is never consulted. -/
def bench (exec : VmState → BenchmarkExecResult)
    (seeds : BenchmarkCase → Nat) (f : FunctionShape) : List BenchmarkResult :=
  [BenchmarkCase.commonCase, BenchmarkCase.worstCase].map (fun c =>
    let st := f.pseudorandomInitialState (seeds c) (some c)
    let er := exec st
    { name := f.entrypoint
      clockCycleCount := er.cycleCount
      hashTableHeight := er.hashTableHeight
      u32TableHeight := er.u32TableHeight
      workloadCase := c })

theorem bfePrime_eq : bfePrime = 18446744069414584321 := rfl

theorem charListLeb_cons (c d : Char) (cs ds : List Char) :
    charListLeb (c :: cs) (d :: ds) =
      if c.toNat < d.toNat then true
      else if d.toNat < c.toNat then false
      else charListLeb cs ds := rfl

theorem charListLeb_total : ∀ as bs,
    charListLeb as bs = true ∨ charListLeb bs as = true := by
  intro as
  induction as with
  | nil => intro bs; left; rfl
  | cons c cs ih =>
    intro bs
    cases bs with
    | nil => right; rfl
    | cons d ds =>
      rw [charListLeb_cons, charListLeb_cons]
      rcases Nat.lt_trichotomy c.toNat d.toNat with h | h | h
      · left; rw [if_pos h]
      · have h' : ¬ c.toNat < d.toNat := by omega
        have h'' : ¬ d.toNat < c.toNat := by omega
        rw [if_neg h', if_neg h'', if_neg h'', if_neg h']
        exact ih ds
      · right; rw [if_pos h]

theorem charListLeb_trans : ∀ as bs cs,
    charListLeb as bs = true → charListLeb bs cs = true →
    charListLeb as cs = true := by
  intro as
  induction as with
  | nil => intro bs cs _ _; rfl
  | cons a as ih =>
    intro bs cs h1 h2
    cases bs with
    | nil => exact absurd h1 (by rw [show charListLeb (a :: as) [] = false from rfl]; simp)
    | cons b bs =>
      cases cs with
      | nil => exact absurd h2 (by rw [show charListLeb (b :: bs) [] = false from rfl]; simp)
      | cons c cs =>
        rw [charListLeb_cons] at h1 h2
        rw [charListLeb_cons]
        by_cases hab : a.toNat < b.toNat
        · by_cases hbc : b.toNat < c.toNat
          · rw [if_pos (show a.toNat < c.toNat by omega)]
          · rw [if_neg hbc] at h2
            by_cases hcb : c.toNat < b.toNat
            · rw [if_pos hcb] at h2; exact absurd h2 (by simp)
            · rw [if_pos (show a.toNat < c.toNat by omega)]
        · rw [if_neg hab] at h1
          by_cases hba : b.toNat < a.toNat
          · rw [if_pos hba] at h1; exact absurd h1 (by simp)
          · rw [if_neg hba] at h1
            by_cases hbc : b.toNat < c.toNat
            · rw [if_pos (show a.toNat < c.toNat by omega)]
            · rw [if_neg hbc] at h2
              by_cases hcb : c.toNat < b.toNat
              · rw [if_pos hcb] at h2; exact absurd h2 (by simp)
              · rw [if_neg hcb] at h2
                rw [if_neg (show ¬ a.toNat < c.toNat by omega),
                  if_neg (show ¬ c.toNat < a.toNat by omega)]
                exact ih bs cs h1 h2

theorem charListLeb_antisymm : ∀ as bs,
    charListLeb as bs = true → charListLeb bs as = true → as = bs := by
  intro as
  induction as with
  | nil =>
    intro bs _ h2
    cases bs with
    | nil => rfl
    | cons b bs =>
      exact absurd h2 (by rw [show charListLeb (b :: bs) [] = false from rfl]; simp)
  | cons a as ih =>
    intro bs h1 h2
    cases bs with
    | nil => exact absurd h1 (by rw [show charListLeb (a :: as) [] = false from rfl]; simp)
    | cons b bs =>
      rw [charListLeb_cons] at h1 h2
      by_cases hab : a.toNat < b.toNat
      · rw [if_neg (show ¬ b.toNat < a.toNat by omega), if_pos hab] at h2
        exact absurd h2 (by simp)
      · by_cases hba : b.toNat < a.toNat
        · rw [if_pos hba, if_neg hab] at h1
          exact absurd h1 (by simp)
        · rw [if_neg hab, if_neg hba] at h1
          rw [if_neg hba, if_neg hab] at h2
          have hcd : a = b :=
            Char.ext (UInt32.ext (show a.toNat = b.toNat by omega))
          rw [hcd, ih bs h1 h2]

theorem inRegion_plain {a n x : Nat} (h : a + n ≤ bfePrime) :
    inRegion a n x ↔ ∃ j, j < n ∧ x = a + j := by
  constructor
  · rintro ⟨j, hj, rfl⟩
    exact ⟨j, hj, Nat.mod_eq_of_lt (by omega)⟩
  · rintro ⟨j, hj, rfl⟩
    exact ⟨j, hj, (Nat.mod_eq_of_lt (by omega)).symm⟩

/-- `kmalloc` on a valid session: explicit characterisation without modular
wrap-around, for `1 ≤ n ≤ free_pointer + 1`. -/
theorem kmalloc_char (lib : Library) (n : Nat) (h1 : 1 ≤ n) (hu : n < 2 ^ 32)
    (hfp : lib.freePointer < bfePrime) (hn : n ≤ lib.freePointer + 1) :
    lib.kmalloc n = some (lib.freePointer + 1 - n,
      { lib with freePointer :=
          if n ≤ lib.freePointer then lib.freePointer - n else bfePrime - 1 }) := by
  have hP := bfePrime_eq
  have hne : n ≠ 0 := by omega
  have hnp : n < bfePrime := by omega
  have hm1 : (n - 1) % bfePrime = n - 1 := Nat.mod_eq_of_lt (by omega)
  have hm2 : n % bfePrime = n := Nat.mod_eq_of_lt hnp
  unfold Library.kmalloc
  simp only [hne, if_false, hm1, hm2]
  congr 1
  by_cases hle : n ≤ lib.freePointer
  · have ha : lib.freePointer + (bfePrime - (n - 1)) =
        bfePrime + (lib.freePointer + 1 - n) := by omega
    have hb : lib.freePointer + (bfePrime - n) = bfePrime + (lib.freePointer - n) := by omega
    congr 1
    · rw [ha, Nat.add_mod_left]
      exact Nat.mod_eq_of_lt (by omega)
    · simp only [hle, if_true]
      congr 1
      rw [hb, Nat.add_mod_left]
      exact Nat.mod_eq_of_lt (by omega)
  · -- n = freePointer + 1: the allocation consumes down to address 0 and the
    -- free pointer wraps to bfePrime - 1.
    have hn' : n = lib.freePointer + 1 := by omega
    congr 1
    · subst hn'
      simp only [Nat.add_sub_cancel]
      have : lib.freePointer + (bfePrime - lib.freePointer) = bfePrime := by omega
      rw [this, Nat.mod_self]
      omega
    · simp only [hle, if_false]
      congr 1
      subst hn'
      have : lib.freePointer + (bfePrime - (lib.freePointer + 1)) = bfePrime - 1 := by
        omega
      rw [this]
      exact Nat.mod_eq_of_lt (by omega)

/-- Characterisation of a whole allocation sequence: every region lies at or
below the starting free pointer, and the regions are pairwise disjoint. -/
theorem allocAll_disjoint (lib : Library) (ns : List Nat)
    (hvalid : ∀ m ∈ ns, 1 ≤ m ∧ m < 2 ^ 32) (hsum : ns.sum ≤ lib.freePointer + 1)
    (hfp : lib.freePointer < bfePrime) :
    ∃ addrs lib', lib.allocAll ns = some (addrs, lib') ∧
      addrs.length = ns.length ∧
      (∀ p ∈ addrs.zip ns, ∀ x, inRegion p.1 p.2 x → x ≤ lib.freePointer) ∧
      (addrs.zip ns).Pairwise
        (fun p q => ∀ x, inRegion p.1 p.2 x → ¬ inRegion q.1 q.2 x) := by
  induction ns generalizing lib with
  | nil =>
    exact ⟨[], lib, rfl, rfl, by simp, by simp⟩
  | cons n ns ih =>
    obtain ⟨hn1, hnu⟩ := hvalid n (List.mem_cons_self n ns)
    have hnsum : n + ns.sum ≤ lib.freePointer + 1 := by
      simpa [List.sum_cons] using hsum
    have hn : n ≤ lib.freePointer + 1 := by omega
    have hchar := kmalloc_char lib n hn1 hnu hfp hn
    by_cases hle : n ≤ lib.freePointer
    · -- no wrap: new free pointer is freePointer - n
      set lib1 : Library :=
        { lib with freePointer := lib.freePointer - n } with hlib1
      have hchar' : lib.kmalloc n = some (lib.freePointer + 1 - n, lib1) := by
        rw [hchar]; simp [hlib1, hle]
      have hfp1 : lib1.freePointer < bfePrime := by
        simp [hlib1]; omega
      have hsum1 : ns.sum ≤ lib1.freePointer + 1 := by
        simp [hlib1]; omega
      obtain ⟨addrs, lib', hrun, hlen, hbound, hpw⟩ :=
        ih lib1 (fun m hm => hvalid m (List.mem_cons_of_mem n hm)) hsum1 hfp1
      refine ⟨(lib.freePointer + 1 - n) :: addrs, lib', ?_, by simp [hlen], ?_, ?_⟩
      · simp [Library.allocAll, hchar', hrun]
      · intro p hp x hx
        rcases List.mem_cons.mp hp with hp | hp
        · subst hp
          have hb : lib.freePointer + 1 - n + n ≤ bfePrime := by omega
          obtain ⟨j, hj, rfl⟩ := (inRegion_plain hb).mp hx
          omega
        · have := hbound p hp x hx
          simp [hlib1] at this
          omega
      · refine List.pairwise_cons.mpr ⟨?_, hpw⟩
        intro q hq x hx hx'
        have hxq := hbound q hq x hx'
        simp [hlib1] at hxq
        have hb : lib.freePointer + 1 - n + n ≤ bfePrime := by omega
        obtain ⟨j, hj, rfl⟩ := (inRegion_plain hb).mp hx
        omega
    · -- n = freePointer + 1: this allocation consumes everything; the rest of
      -- the sum must be zero, so ns is empty.
      have hn' : n = lib.freePointer + 1 := by omega
      have hns : ns = [] := by
        cases ns with
        | nil => rfl
        | cons m ms =>
          have := hvalid m (by simp)
          simp [List.sum_cons] at hnsum
          omega
      subst hns
      set lib1 : Library := { lib with freePointer := bfePrime - 1 } with hlib1
      have hchar' : lib.kmalloc n = some (lib.freePointer + 1 - n, lib1) := by
        rw [hchar]; simp [hlib1, hle]
      refine ⟨[lib.freePointer + 1 - n], lib1, ?_, rfl, ?_, ?_⟩
      · simp [Library.allocAll, hchar']
      · intro p hp x hx
        simp at hp
        subst hp
        have hb : lib.freePointer + 1 - n + n ≤ bfePrime := by omega
        obtain ⟨j, hj, rfl⟩ := (inRegion_plain hb).mp hx
        omega
      · simp

/-- C5 counterexample data: `kmalloc 7` on a fresh session. -/
theorem kmalloc_seven_fresh :
    Library.new.kmalloc 7 =
      some (bfePrime - 7, { seenSnippets := [], freePointer := bfePrime - 8 }) := by
  have := kmalloc_char Library.new 7 (by decide) (by decide)
    (by unfold Library.new staticMemoryStartAddress; decide)
    (by unfold Library.new staticMemoryStartAddress; decide)
  rw [this]
  norm_num [Library.new, staticMemoryStartAddress, bfePrime]

/-- C5 counterexample: the claim states that `kmalloc` returns the first
address of the region `[free_pointer, free_pointer + num_words)`.  On a fresh
session, `kmalloc(7)` returns `bfePrime - 7` while the decremented free
pointer is `bfePrime - 8` (and the pre-call free pointer is `bfePrime - 1`),
so the returned address is the first address of neither interval: it is
`free_pointer' + 1`. -/
theorem kmalloc_region_claim_false :
    Library.new.kmalloc 7 =
      some (bfePrime - 7, { seenSnippets := [], freePointer := bfePrime - 8 }) ∧
    bfePrime - 7 ≠ bfePrime - 8 ∧
    bfePrime - 7 ≠ Library.new.freePointer := by
  refine ⟨kmalloc_seven_fresh, by decide, ?_⟩
  unfold Library.new staticMemoryStartAddress
  decide

/-- C5 (amended): `kmalloc n` decrements the free pointer by exactly `n`
(modulo the word range) and returns `free_pointer' + 1`, i.e. the claimed
region is `[free_pointer' + 1, free_pointer' + 1 + n)`; successive regions of
any allocation sequence from a fresh session are pairwise disjoint. -/
theorem kmalloc_amended (lib : Library) (n : Nat) (ns : List Nat)
    (hn1 : 1 ≤ n) (hnp : n < bfePrime)
    (hvalid : ∀ m ∈ ns, 1 ≤ m ∧ m < 2 ^ 32) (hsum : ns.sum ≤ bfePrime) :
    lib.kmalloc n =
      some (((lib.freePointer + (bfePrime - n)) % bfePrime + 1) % bfePrime,
        { lib with freePointer := (lib.freePointer + (bfePrime - n)) % bfePrime }) ∧
    (∃ r, Library.new.allocAll ns = some r ∧ r.1.length = ns.length ∧
      (r.1.zip ns).Pairwise
        (fun p q => ∀ x, inRegion p.1 p.2 x → ¬ inRegion q.1 q.2 x)) := by
  constructor
  · have hne : n ≠ 0 := by omega
    have hm2 : n % bfePrime = n := Nat.mod_eq_of_lt hnp
    have hm1 : (n - 1) % bfePrime = n - 1 := Nat.mod_eq_of_lt (by omega)
    unfold Library.kmalloc
    simp only [hne, if_false, hm1, hm2]
    have h2 : bfePrime - (n - 1) = bfePrime - n + 1 := by omega
    rw [h2, ← Nat.add_assoc, Nat.mod_add_mod]
  · have hfpnew : Library.new.freePointer < bfePrime := by
      unfold Library.new staticMemoryStartAddress; decide
    have hsum' : ns.sum ≤ Library.new.freePointer + 1 := by
      unfold Library.new staticMemoryStartAddress
      simpa using hsum
    obtain ⟨addrs, lib', hrun, hlen, _, hpw⟩ :=
      allocAll_disjoint Library.new ns hvalid hsum' hfpnew
    exact ⟨(addrs, lib'), hrun, hlen, hpw⟩

/-- Witness for C5 (amended): `kmalloc 7` on a fresh session together with the
allocation sequence `[1, 7, 1000]`, whose returned addresses are
`[-1, -8, -1008]`. -/
theorem kmalloc_amended_witness :
    Library.new.kmalloc 7 =
      some (((Library.new.freePointer + (bfePrime - 7)) % bfePrime + 1) % bfePrime,
        { Library.new with
            freePointer := (Library.new.freePointer + (bfePrime - 7)) % bfePrime }) ∧
    Library.new.allocAll [1, 7, 1000] =
      some ([bfePrime - 1, bfePrime - 8, bfePrime - 1008],
        { seenSnippets := [], freePointer := bfePrime - 1009 }) ∧
    (([bfePrime - 1, bfePrime - 8, bfePrime - 1008].zip [1, 7, 1000]).Pairwise
      (fun p q => ∀ x, inRegion p.1 p.2 x → ¬ inRegion q.1 q.2 x)) := by
  have h := kmalloc_amended Library.new 7 [1, 7, 1000] (by decide) (by decide)
    (by decide) (by decide)
  have heval : Library.new.allocAll [1, 7, 1000] =
      some ([bfePrime - 1, bfePrime - 8, bfePrime - 1008],
        { seenSnippets := [], freePointer := bfePrime - 1009 }) := by decide
  refine ⟨h.1, heval, ?_⟩
  obtain ⟨r, hrun, _, hpw⟩ := h.2
  rw [heval] at hrun
  cases hrun
  exact hpw

/-- C6: from a fresh session whose free pointer starts at the sentinel
`MAX = bfePrime - 1`, `allocate(1)` returns `MAX`, a following `allocate(7)`
returns `MAX - 7`, and a following `allocate(1000)` returns `MAX - 1007`
(matching `kmalloc_test` in `library.rs`: `-1`, `-8`, `-1008`). -/
theorem kmalloc_fresh_scenario :
    ((Library.new.kmalloc 1).map Prod.fst = some staticMemoryStartAddress) ∧
    (((Library.new.kmalloc 1).bind fun r => r.2.kmalloc 7).map Prod.fst
        = some (staticMemoryStartAddress - 7)) ∧
    ((((Library.new.kmalloc 1).bind fun r => r.2.kmalloc 7).bind
        fun r => r.2.kmalloc 1000).map Prod.fst
        = some (staticMemoryStartAddress - 1007)) := by
  decide

/-- C10: `kmalloc` is only well-defined for `num_words ≥ 1`.  For
`num_words = 0` the computation `num_words as u64 - 1` underflows and panics
under overflow checking (modelled as `none`); for every positive word count
the allocation succeeds. -/
theorem kmalloc_zero_underflows (lib : Library) :
    lib.kmalloc 0 = none ∧ ∀ n, 1 ≤ n → (lib.kmalloc n).isSome := by
  refine ⟨by simp [Library.kmalloc], fun n hn => ?_⟩
  have : n ≠ 0 := by omega
  simp [Library.kmalloc, this]

/-- Witness for C10 at a fresh session and word count 3. -/
theorem kmalloc_zero_underflows_witness :
    Library.new.kmalloc 0 = none ∧ (Library.new.kmalloc 3).isSome :=
  ⟨(kmalloc_zero_underflows Library.new).1,
    (kmalloc_zero_underflows Library.new).2 3 (by decide)⟩

theorem strLe_antisymm (a b : String) (h1 : strLe a b) (h2 : strLe b a) :
    a = b := by
  cases a with
  | mk da =>
    cases b with
    | mk db => exact congrArg String.mk (charListLeb_antisymm da db h1 h2)

/-- An option-valued fold preserves any invariant its step preserves. -/
theorem foldlM_option_inv {α : Type} (step : Library → α → Option Library)
    (P : Library → Prop)
    (hstep : ∀ l a l', step l a = some l' → P l → P l') :
    ∀ (ds : List α) (lib lib' : Library),
      List.foldlM step lib ds = some lib' → P lib → P lib' := by
  intro ds
  induction ds with
  | nil =>
    intro lib lib' h hp
    simp only [List.foldlM_nil] at h
    cases h
    exact hp
  | cons d ds ih =>
    intro lib lib' h hp
    rw [List.foldlM_cons] at h
    cases hs : step lib d with
    | none => rw [hs] at h; simp at h
    | some lib1 =>
      rw [hs] at h
      simp only [Option.bind_eq_bind, Option.some_bind] at h
      exact ih lib1 lib' h (hstep lib d lib1 hs hp)

/-- An option-valued fold succeeds when every step succeeds. -/
theorem foldlM_option_isSome {α : Type} (step : Library → α → Option Library) :
    ∀ (ds : List α), (∀ l a, a ∈ ds → (step l a).isSome) →
      ∀ lib, (List.foldlM step lib ds).isSome := by
  intro ds
  induction ds with
  | nil => intro _ lib; simp [List.foldlM_nil]
  | cons d ds ih =>
    intro hstep lib
    rw [List.foldlM_cons]
    have h1 := hstep lib d (by simp)
    cases hs : step lib d with
    | none => rw [hs] at h1; simp at h1
    | some lib1 =>
      simp only [Option.bind_eq_bind, Option.some_bind]
      exact ih (fun l a ha => hstep l a (List.mem_cons_of_mem _ ha)) lib1

theorem containsKey_eq_true_iff (lib : Library) (n : String) :
    lib.containsKey n = true ↔ n ∈ lib.seenSnippets.map Prod.fst := by
  simp only [Library.containsKey, List.any_eq_true, beq_iff_eq, List.mem_map]

/-- Inserting preserves distinctness of the entrypoint keys. -/
theorem insertSnippet_keys_nodup (lib : Library) (name : String)
    (body : List Instr) (h : (lib.seenSnippets.map Prod.fst).Nodup) :
    ((lib.insertSnippet name body).seenSnippets.map Prod.fst).Nodup := by
  unfold Library.insertSnippet
  by_cases hc : lib.containsKey name = true
  · rw [if_pos hc]
    have heq : (lib.seenSnippets.map
        (fun kv => if kv.1 == name then (name, body) else kv)).map Prod.fst
        = lib.seenSnippets.map Prod.fst := by
      rw [List.map_map]
      apply List.map_congr_left
      intro kv _
      by_cases hkv : kv.1 = name
      · have hb : (kv.1 == name) = true := by simpa using hkv
        show ((if kv.1 == name then (name, body) else kv) : _ × _).1 = kv.1
        rw [if_pos hb]
        exact hkv.symm
      · have hb : ¬ ((kv.1 == name) = true) := by simpa using hkv
        show ((if kv.1 == name then (name, body) else kv) : _ × _).1 = kv.1
        rw [if_neg hb]
    exact heq ▸ h
  · rw [if_neg hc]
    rw [List.map_append]
    simp only [List.map_cons, List.map_nil]
    rw [List.nodup_append]
    refine ⟨h, List.nodup_singleton name, ?_⟩
    intro a ha hmem
    have : a = name := by simpa using hmem
    subst this
    exact hc ((containsKey_eq_true_iff lib a).mpr ha)

/-- Inserting a generator-produced body preserves the fact that every stored
body is the one its generator produces. -/
theorem insertSnippet_valdet (g : String → List String × List Instr)
    (lib : Library) (name : String)
    (h : ∀ kv ∈ lib.seenSnippets, kv.2 = (g kv.1).2) :
    ∀ kv ∈ (lib.insertSnippet name (g name).2).seenSnippets,
      kv.2 = (g kv.1).2 := by
  unfold Library.insertSnippet
  by_cases hc : lib.containsKey name = true
  · rw [if_pos hc]
    intro kv hkv
    rw [List.mem_map] at hkv
    obtain ⟨kv', hkv', rfl⟩ := hkv
    by_cases hb : (kv'.1 == name) = true
    · rw [if_pos hb]
    · rw [if_neg hb]
      exact h kv' hkv'
  · rw [if_neg hc]
    intro kv hkv
    rcases List.mem_append.mp hkv with hm | hm
    · exact h kv hm
    · have : kv = (name, (g name).2) := by simpa using hm
      subst this
      rfl

/-- `import` preserves any session property that both holds initially and is
preserved by inserting a generator-produced body. -/
theorem importFuel_pres (g : String → List String × List Instr)
    (P : Library → Prop)
    (hins : ∀ lib name, P lib → P (lib.insertSnippet name (g name).2)) :
    ∀ fuel lib name r, importFuel g fuel lib name = some r → P lib → P r.2 := by
  intro fuel
  induction fuel with
  | zero => intro lib name r h; intro _; simp [importFuel] at h
  | succ fuel ih =>
    intro lib name r h hp
    unfold importFuel at h
    by_cases hc : lib.containsKey name
    · rw [if_pos hc] at h
      cases h
      exact hp
    · rw [if_neg hc] at h
      cases hfold : (g name).1.foldlM
          (fun l d => (importFuel g fuel l d).map Prod.snd) lib with
      | none => rw [hfold] at h; simp at h
      | some lib1 =>
        rw [hfold] at h
        have hP1 : P lib1 :=
          foldlM_option_inv _ P
            (fun l a l' hs hp' => by
              rcases Option.map_eq_some'.mp hs with ⟨p, hp'', rfl⟩
              exact ih l a p hp'' hp')
            (g name).1 lib lib1 hfold hp
        cases h
        exact hins lib1 name hP1

/-- `importMany` version of `importFuel_pres`. -/
theorem importMany_pres (g : String → List String × List Instr)
    (P : Library → Prop)
    (hins : ∀ lib name, P lib → P (lib.insertSnippet name (g name).2))
    (fuel : Nat) (ns : List String) (lib lib' : Library)
    (h : importMany g fuel lib ns = some lib') (hbase : P lib) : P lib' :=
  foldlM_option_inv _ P
    (fun l a l' hs hp => by
      rcases Option.map_eq_some'.mp hs with ⟨p, hp', rfl⟩
      exact importFuel_pres g P hins fuel l a p hp' hp)
    ns lib lib' h hbase

/-- A key-value list whose values are generator-determined is the image of its
key list. -/
theorem pairs_eq_map_keys (g : String → List String × List Instr) :
    ∀ l : List (String × List Instr), (∀ kv ∈ l, kv.2 = (g kv.1).2) →
      l = (l.map Prod.fst).map (fun k => (k, (g k).2)) := by
  intro l
  induction l with
  | nil => intro _; rfl
  | cons kv l ih =>
    intro h
    cases kv with
    | mk k v =>
      have h1 : v = (g k).2 := h (k, v) (by simp)
      rw [List.map_cons, List.map_cons,
        ← ih (fun x hx => h x (List.mem_cons_of_mem _ hx)), ← h1]

/-- Sorting key-value pairs by key and projecting to keys is the same as
sorting the keys. -/
theorem sortPairs_map_fst (l : List (String × List Instr)) :
    (List.insertionSort (fun a b => strLe a.1 b.1) l).map Prod.fst
      = List.insertionSort strLe (l.map Prod.fst) := by
  haveI : IsTotal (String × List Instr) (fun a b => strLe a.1 b.1) :=
    ⟨fun a b => charListLeb_total _ _⟩
  haveI : IsTrans (String × List Instr) (fun a b => strLe a.1 b.1) :=
    ⟨fun a b c => charListLeb_trans _ _ _⟩
  haveI : IsTotal String strLe := ⟨fun a b => charListLeb_total _ _⟩
  haveI : IsTrans String strLe := ⟨fun a b c => charListLeb_trans _ _ _⟩
  haveI : IsAntisymm String strLe := ⟨strLe_antisymm⟩
  refine @List.eq_of_perm_of_sorted _ strLe _ _ _ ?_ ?_ ?_
  · exact ((List.perm_insertionSort _ l).map Prod.fst).trans
      (List.perm_insertionSort strLe (l.map Prod.fst)).symm
  · exact List.pairwise_map.mpr (List.sorted_insertionSort _ l)
  · exact List.sorted_insertionSort strLe (l.map Prod.fst)

/-- Canonical form of `all_external_dependencies`: the generator bodies of the
sorted entrypoint names. -/
theorem allExternalDependencies_canonical (g : String → List String × List Instr)
    (lib : Library) (h : ∀ kv ∈ lib.seenSnippets, kv.2 = (g kv.1).2) :
    lib.allExternalDependencies
      = lib.getAllSnippetNames.map (fun k => (g k).2) := by
  unfold Library.allExternalDependencies Library.getAllSnippetNames
  have hmem : ∀ kv ∈ List.insertionSort (fun a b => strLe a.1 b.1)
      lib.seenSnippets, kv.2 = (g kv.1).2 := by
    intro kv hkv
    exact h kv ((List.perm_insertionSort _ _).mem_iff.mp hkv)
  conv_lhs => rw [pairs_eq_map_keys g _ hmem]
  rw [List.map_map, sortPairs_map_fst]
  rfl

/-- C1: for a fixed set of imported snippets, regardless of the order of
`import` calls (re-imports and recursive imports included), the export is
identical across runs: `all_external_dependencies` / `all_imports` are the
concatenation of the snippet bodies sorted by entrypoint name, and
`get_all_snippet_names` is the alphabetically sorted name list. -/
theorem export_deterministic (g : String → List String × List Instr)
    (fuel₁ fuel₂ : Nat) (ns₁ ns₂ : List String) (lib₁ lib₂ : Library)
    (h₁ : importMany g fuel₁ Library.new ns₁ = some lib₁)
    (h₂ : importMany g fuel₂ Library.new ns₂ = some lib₂)
    (hkeys : ∀ n, lib₁.containsKey n = lib₂.containsKey n) :
    lib₁.allExternalDependencies = lib₂.allExternalDependencies ∧
    lib₁.allImports = lib₂.allImports ∧
    lib₁.getAllSnippetNames = lib₂.getAllSnippetNames ∧
    lib₁.getAllSnippetNames.Sorted strLe ∧
    lib₁.allImports
      = (lib₁.getAllSnippetNames.map (fun k => (g k).2)).flatten := by
  haveI : IsTotal String strLe := ⟨fun a b => charListLeb_total _ _⟩
  haveI : IsTrans String strLe := ⟨fun a b c => charListLeb_trans _ _ _⟩
  haveI : IsAntisymm String strLe := ⟨strLe_antisymm⟩
  have hval₁ : ∀ kv ∈ lib₁.seenSnippets, kv.2 = (g kv.1).2 :=
    importMany_pres g _ (insertSnippet_valdet g) fuel₁ ns₁ Library.new lib₁ h₁
      (by intro kv hkv; simp [Library.new] at hkv)
  have hval₂ : ∀ kv ∈ lib₂.seenSnippets, kv.2 = (g kv.1).2 :=
    importMany_pres g _ (insertSnippet_valdet g) fuel₂ ns₂ Library.new lib₂ h₂
      (by intro kv hkv; simp [Library.new] at hkv)
  have hnd₁ : (lib₁.seenSnippets.map Prod.fst).Nodup :=
    importMany_pres g _ (fun l nm hp => insertSnippet_keys_nodup l nm _ hp)
      fuel₁ ns₁ Library.new lib₁ h₁ (by simp [Library.new])
  have hnd₂ : (lib₂.seenSnippets.map Prod.fst).Nodup :=
    importMany_pres g _ (fun l nm hp => insertSnippet_keys_nodup l nm _ hp)
      fuel₂ ns₂ Library.new lib₂ h₂ (by simp [Library.new])
  have hperm : (lib₁.seenSnippets.map Prod.fst).Perm
      (lib₂.seenSnippets.map Prod.fst) :=
    (List.perm_ext_iff_of_nodup hnd₁ hnd₂).mpr (fun a => by
      rw [← containsKey_eq_true_iff, ← containsKey_eq_true_iff, hkeys a])
  have hnames : lib₁.getAllSnippetNames = lib₂.getAllSnippetNames := by
    unfold Library.getAllSnippetNames
    exact @List.eq_of_perm_of_sorted _ strLe _ _ _
      ((List.perm_insertionSort _ _).trans
        (hperm.trans (List.perm_insertionSort _ _).symm))
      (List.sorted_insertionSort _ _) (List.sorted_insertionSort _ _)
  have hdeps₁ := allExternalDependencies_canonical g lib₁ hval₁
  have hdeps₂ := allExternalDependencies_canonical g lib₂ hval₂
  refine ⟨?_, ?_, hnames, ?_, ?_⟩
  · rw [hdeps₁, hdeps₂, hnames]
  · unfold Library.allImports
    rw [hdeps₁, hdeps₂, hnames]
  · exact List.sorted_insertionSort _ _
  · unfold Library.allImports
    rw [hdeps₁]

/-- Witness for C1: importing the `dummyGen` roots `[x, b]` and `[b, x]`
yields sessions with different insertion orders but identical exports. -/
theorem export_deterministic_witness :
    importMany dummyGen 4 Library.new ["x", "b"] = some libRun₁ ∧
    importMany dummyGen 4 Library.new ["b", "x"] = some libRun₂ ∧
    libRun₁.seenSnippets ≠ libRun₂.seenSnippets ∧
    libRun₁.allExternalDependencies = libRun₂.allExternalDependencies ∧
    libRun₁.allImports = libRun₂.allImports ∧
    libRun₁.getAllSnippetNames = libRun₂.getAllSnippetNames ∧
    libRun₁.getAllSnippetNames.Sorted strLe ∧
    libRun₁.allImports
      = (libRun₁.getAllSnippetNames.map (fun k => (dummyGen k).2)).flatten := by
  have e₁ : importMany dummyGen 4 Library.new ["x", "b"] = some libRun₁ := by
    decide
  have e₂ : importMany dummyGen 4 Library.new ["b", "x"] = some libRun₂ := by
    decide
  have hkeys : ∀ n, libRun₁.containsKey n = libRun₂.containsKey n := by
    intro n
    simp only [libRun₁, libRun₂, Library.containsKey, List.any_cons,
      List.any_nil]
    cases h1 : (("x", [Instr.push 4]).1 == n) <;>
      cases h2 : (("b", [Instr.push 2]).1 == n) <;>
        cases h3 : (("c", [Instr.push 3]).1 == n) <;> simp [h1, h2, h3]
  have h := export_deterministic dummyGen 4 4 ["x", "b"] ["b", "x"]
    libRun₁ libRun₂ e₁ e₂ hkeys
  exact ⟨e₁, e₂, by decide, h.1, h.2.1, h.2.2.1, h.2.2.2.1, h.2.2.2.2⟩

/-- On an acyclic generator table, `import` succeeds given fuel above the
root's rank. -/
theorem importFuel_isSome (g : String → List String × List Instr)
    (rank : String → Nat) (hacyc : ∀ n d, d ∈ (g n).1 → rank d < rank n) :
    ∀ fuel name lib, rank name < fuel →
      (importFuel g fuel lib name).isSome := by
  intro fuel
  induction fuel with
  | zero => intro name lib h; exact absurd h (Nat.not_lt_zero _)
  | succ fuel ih =>
    intro name lib h
    unfold importFuel
    by_cases hc : lib.containsKey name
    · rw [if_pos hc]; rfl
    · rw [if_neg hc]
      have hfold : ((g name).1.foldlM
          (fun l d => (importFuel g fuel l d).map Prod.snd) lib).isSome := by
        apply foldlM_option_isSome
        intro l a ha
        have hr : rank a < fuel := by
          have := hacyc name a ha
          omega
        have := ih a l hr
        cases hx : importFuel g fuel l a with
        | none => rw [hx] at this; simp at this
        | some p => rfl
      cases hfold' : (g name).1.foldlM
          (fun l d => (importFuel g fuel l d).map Prod.snd) lib with
      | none => rw [hfold'] at hfold; simp at hfold
      | some lib1 => rfl

/-- On the two-snippet cycle, `import` fails for every fuel bound: the
in-progress snippet is never in the map (it is inserted only after its
generator returns), so the recursion never terminates. -/
theorem cyclicGen_stuck : ∀ fuel (lib : Library),
    lib.containsKey "a" = false → lib.containsKey "b" = false →
    importFuel cyclicGen fuel lib "a" = none ∧
    importFuel cyclicGen fuel lib "b" = none := by
  intro fuel
  induction fuel with
  | zero => intro lib _ _; exact ⟨rfl, rfl⟩
  | succ fuel ih =>
    intro lib ha hb
    constructor
    · unfold importFuel
      rw [if_neg (by simp [ha])]
      have hd : (cyclicGen "a").1 = ["b"] := rfl
      rw [hd, List.foldlM_cons, (ih lib ha hb).2]
      rfl
    · unfold importFuel
      rw [if_neg (by simp [hb])]
      have hd : (cyclicGen "b").1 = ["a"] := rfl
      rw [hd, List.foldlM_cons, (ih lib ha hb).1]
      rfl

/-- C7: `import` terminates on snippets whose transitive dependency graph is
acyclic (witnessed by a rank function), importing each distinct entrypoint at
most once (the key list stays duplicate-free, and re-importing a present
entrypoint is a no-op returning the cached name); a dependency cycle is not
detected and exhausts any fuel bound, because a body is inserted into the map
only after its generator returns. -/
theorem import_termination_and_cycle (g : String → List String × List Instr)
    (rank : String → Nat) (hacyc : ∀ n d, d ∈ (g n).1 → rank d < rank n) :
    (∀ fuel name lib, rank name < fuel →
      (importFuel g fuel lib name).isSome) ∧
    (∀ fuel (lib : Library) name, lib.containsKey name = true →
      importFuel g (fuel + 1) lib name = some (name, lib)) ∧
    (∀ fuel lib name r, importFuel g fuel lib name = some r →
      (lib.seenSnippets.map Prod.fst).Nodup →
      (r.2.seenSnippets.map Prod.fst).Nodup) ∧
    (∀ fuel, importFuel cyclicGen fuel Library.new "a" = none) := by
  refine ⟨importFuel_isSome g rank hacyc, ?_, ?_, ?_⟩
  · intro fuel lib name h
    unfold importFuel
    rw [if_pos h]
  · intro fuel lib name r h hn
    exact importFuel_pres g _
      (fun l nm hp => insertSnippet_keys_nodup l nm _ hp) fuel lib name r h hn
  · intro fuel
    exact (cyclicGen_stuck fuel Library.new rfl rfl).1

theorem one_lt_bfePrime : 1 < bfePrime := by decide

theorem mod_bfePrime_lt (x : Nat) : x % bfePrime < bfePrime :=
  Nat.mod_lt _ (by decide)

theorem execInstrs_append (mem : Nat → Nat) (xs ys : List Instr)
    (st : List Nat) :
    execInstrs mem (xs ++ ys) st
      = (execInstrs mem xs st).bind (fun s => execInstrs mem ys s) := by
  unfold execInstrs
  induction xs generalizing st with
  | nil => simp [List.foldlM_nil]
  | cons i xs ih =>
    rw [List.cons_append, List.foldlM_cons, List.foldlM_cons]
    cases h : execInstr mem i st with
    | none => simp
    | some s' => simp [Option.bind_eq_bind, Option.some_bind, ih s']

theorem ptr_roundtrip (a : Nat) (ha : a < bfePrime) :
    (1 % bfePrime + (a + (bfePrime - 1)) % bfePrime) % bfePrime = a := by
  rw [Nat.mod_eq_of_lt one_lt_bfePrime, Nat.add_mod_mod]
  have h : 1 + (a + (bfePrime - 1)) = a + bfePrime := by
    have := bfePrime_eq
    omega
  rw [h, Nat.add_mod_right]
  exact Nat.mod_eq_of_lt ha

/-- Executing a jumper at field start `a` leaves `a` and the jump amount. -/
theorem execInstrs_jumper (mem : Nat → Nat) (k : Option Nat) (a : Nat)
    (st : List Nat) (ha : a < bfePrime) :
    execInstrs mem (jumperCode k) (a :: st)
      = some (jumpValue mem a k :: a :: st) := by
  cases k with
  | some size => rfl
  | none =>
    show execInstrs mem
      [Instr.readMem1, Instr.push 1, Instr.add, Instr.swap1, Instr.push 1,
        Instr.add] (a :: st) = _
    unfold execInstrs
    simp only [List.foldlM_cons, List.foldlM_nil, execInstr,
      Option.bind_eq_bind, Option.some_bind, Option.pure_def]
    rw [ptr_roundtrip a ha, Nat.mod_eq_of_lt one_lt_bfePrime, Nat.add_comm 1]
    rfl

/-- Executing the start-with-jump chain realises `chaseRev`. -/
theorem execInstrs_startWithJumpRev (mem : Nat → Nat) :
    ∀ revKs, revKs ≠ [] → ∀ (a : Nat) (st : List Nat), a < bfePrime →
      execInstrs mem (startWithJumpRev revKs) (a :: st)
        = some ((chaseRev mem a revKs).2 :: (chaseRev mem a revKs).1 :: st) := by
  intro revKs
  induction revKs with
  | nil => intro h; exact absurd rfl h
  | cons k rest ih =>
    intro _ a st ha
    cases rest with
    | nil =>
      rw [show startWithJumpRev [k] = jumperCode k from rfl]
      rw [show chaseRev mem a [k] = (a, jumpValue mem a k) from rfl]
      exact execInstrs_jumper mem k a st ha
    | cons k' rest' =>
      rw [show startWithJumpRev (k :: k' :: rest')
        = startWithJumpRev (k' :: rest') ++ [Instr.add] ++ jumperCode k
        from rfl]
      rw [execInstrs_append, execInstrs_append,
        ih (by simp) a st ha]
      simp only [Option.bind_eq_bind, Option.some_bind]
      rw [show execInstrs mem [Instr.add]
          ((chaseRev mem a (k' :: rest')).2
            :: (chaseRev mem a (k' :: rest')).1 :: st)
        = some (((chaseRev mem a (k' :: rest')).2
            + (chaseRev mem a (k' :: rest')).1) % bfePrime :: st) from rfl]
      simp only [Option.bind_eq_bind, Option.some_bind]
      rw [execInstrs_jumper mem k _ st (mod_bfePrime_lt _)]
      rfl

theorem encodeFields_cons (p : FieldSpec × List Nat)
    (l : List (FieldSpec × List Nat)) :
    encodeFields (p :: l) = encodeFieldP p ++ encodeFields l := by
  simp [encodeFields]

theorem encodeFields_append (l₁ l₂ : List (FieldSpec × List Nat)) :
    encodeFields (l₁ ++ l₂) = encodeFields l₁ ++ encodeFields l₂ := by
  simp [encodeFields]

theorem encodeFields_take_succ (L : List (FieldSpec × List Nat)) (i : Nat)
    (hi : i < L.length) :
    encodeFields (L.take (i + 1))
      = encodeFields (L.take i) ++ encodeFieldP (L.get ⟨i, hi⟩) := by
  rw [List.take_succ, List.getElem?_eq_getElem hi, encodeFields_append]
  simp [encodeFields]

theorem offset_succ (L : List (FieldSpec × List Nat)) (i : Nat)
    (hi : i < L.length) :
    (encodeFields (L.take (i + 1))).length
      = (encodeFields (L.take i)).length + footprintP (L.get ⟨i, hi⟩) := by
  rw [encodeFields_take_succ L i hi, List.length_append]
  rfl

theorem offset_le (L : List (FieldSpec × List Nat)) (i : Nat) :
    (encodeFields (L.take i)).length ≤ (encodeFields L).length := by
  conv_rhs => rw [← List.take_append_drop i L]
  rw [encodeFields_append, List.length_append]
  omega

theorem offset_add_footprint_le (L : List (FieldSpec × List Nat)) (i : Nat)
    (hi : i < L.length) :
    (encodeFields (L.take i)).length + footprintP (L.get ⟨i, hi⟩)
      ≤ (encodeFields L).length := by
  rw [← offset_succ L i hi]
  exact offset_le L (i + 1)

theorem memOf_read (addr t : Nat) (ws : List Nat) :
    memOf addr ws (addr + t) = ws.getD t 0 := by
  unfold memOf
  rw [if_pos (Nat.le_add_right _ _)]
  congr 1
  omega

/-- Reading the length prefix of a dynamic field at its start offset. -/
theorem memOf_prefix_read (L : List (FieldSpec × List Nat))
    (pre post : List Nat) (addr j : Nat) (hj : j < L.length)
    (hdyn : (L.get ⟨j, hj⟩).1.staticLength = none) :
    memOf addr (pre ++ encodeFields L ++ post)
        (addr + pre.length + (encodeFields (L.take j)).length)
      = (L.get ⟨j, hj⟩).2.length := by
  have hfoot : 0 < footprintP (L.get ⟨j, hj⟩) := by
    unfold footprintP encodeFieldP
    rw [hdyn]
    simp
  have hoff : (encodeFields (L.take j)).length < (encodeFields L).length := by
    have := offset_add_footprint_le L j hj
    omega
  rw [Nat.add_assoc, memOf_read]
  rw [List.getD_append _ _ _ _ (by
    rw [List.length_append]
    omega)]
  rw [List.getD_append_right _ _ _ _ (Nat.le_add_right _ _),
    Nat.add_sub_cancel_left]
  rw [show encodeFields L
      = encodeFields (L.take j) ++ encodeFields (L.drop j) from by
    rw [← encodeFields_append, List.take_append_drop]]
  rw [List.getD_append_right _ _ _ _ (Nat.le_refl _), Nat.sub_self,
    List.drop_eq_get_cons hj, encodeFields_cons,
    show encodeFieldP (L.get ⟨j, hj⟩)
      = (L.get ⟨j, hj⟩).2.length :: (L.get ⟨j, hj⟩).2 from by
        unfold encodeFieldP
        rw [hdyn]]
  rfl

/-- At a field's start offset, the jumper's jump amount is exactly the
field's memory footprint. -/
theorem jumpValue_at_offset (L : List (FieldSpec × List Nat))
    (pre post : List Nat) (addr j : Nat) (hj : j < L.length)
    (hwf : ∀ p ∈ L, ∀ s, p.1.staticLength = some s → p.2.length = s)
    (hov : addr + pre.length + (encodeFields L).length < bfePrime) :
    jumpValue (memOf addr (pre ++ encodeFields L ++ post))
        (addr + pre.length + (encodeFields (L.take j)).length)
        (L.get ⟨j, hj⟩).1.staticLength
      = footprintP (L.get ⟨j, hj⟩) := by
  have hle := offset_add_footprint_le L j hj
  cases hsl : (L.get ⟨j, hj⟩).1.staticLength with
  | some s =>
    have hs : (L.get ⟨j, hj⟩).2.length = s :=
      hwf _ (List.get_mem L j hj) s hsl
    have hfp : footprintP (L.get ⟨j, hj⟩) = s := by
      unfold footprintP encodeFieldP
      rw [hsl, hs]
    rw [show jumpValue (memOf addr (pre ++ encodeFields L ++ post))
        (addr + pre.length + (encodeFields (L.take j)).length) (some s)
      = s % bfePrime from rfl, hfp]
    exact Nat.mod_eq_of_lt (by omega)
  | none =>
    rw [show jumpValue (memOf addr (pre ++ encodeFields L ++ post))
        (addr + pre.length + (encodeFields (L.take j)).length) none
      = (memOf addr (pre ++ encodeFields L ++ post)
          (addr + pre.length + (encodeFields (L.take j)).length) % bfePrime + 1)
          % bfePrime from rfl]
    rw [memOf_prefix_read L pre post addr j hj hsl]
    have hfp : footprintP (L.get ⟨j, hj⟩) = (L.get ⟨j, hj⟩).2.length + 1 := by
      unfold footprintP encodeFieldP
      rw [hsl]
      rfl
    rw [Nat.mod_eq_of_lt (show (L.get ⟨j, hj⟩).2.length < bfePrime by omega),
      Nat.mod_eq_of_lt (show (L.get ⟨j, hj⟩).2.length + 1 < bfePrime by omega),
      hfp]

theorem chaseRev_cons_cons (mem : Nat → Nat) (a : Nat) (k k' : Option Nat)
    (rest : List (Option Nat)) :
    chaseRev mem a (k :: k' :: rest)
      = (((chaseRev mem a (k' :: rest)).2
            + (chaseRev mem a (k' :: rest)).1) % bfePrime,
          jumpValue mem
            (((chaseRev mem a (k' :: rest)).2
              + (chaseRev mem a (k' :: rest)).1) % bfePrime) k) := rfl

/-- The start-with-jump chain computes, for processing index `i`, the field's
start address `addr + offset i` and its footprint as jump amount, where
`offset i` is the total footprint of the fields at indices below `i`. -/
theorem chaseRev_layout (L : List (FieldSpec × List Nat))
    (pre post : List Nat) (addr : Nat)
    (hwf : ∀ p ∈ L, ∀ s, p.1.staticLength = some s → p.2.length = s)
    (hov : addr + pre.length + (encodeFields L).length < bfePrime) :
    ∀ i (hi : i < L.length),
      chaseRev (memOf addr (pre ++ encodeFields L ++ post))
          (addr + pre.length)
          (((L.take (i + 1)).map (fun p => p.1.staticLength)).reverse)
        = (addr + pre.length + (encodeFields (L.take i)).length,
            footprintP (L.get ⟨i, hi⟩)) := by
  intro i
  induction i with
  | zero =>
    intro hi
    have h1 : L.take 1 = [L.get ⟨0, hi⟩] := by
      rw [List.take_succ, List.getElem?_eq_getElem hi]
      rfl
    rw [h1]
    rw [show (([(L.get ⟨0, hi⟩)]).map (fun p => p.1.staticLength)).reverse
      = [(L.get ⟨0, hi⟩).1.staticLength] from rfl]
    rw [show chaseRev (memOf addr (pre ++ encodeFields L ++ post))
        (addr + pre.length) [(L.get ⟨0, hi⟩).1.staticLength]
      = (addr + pre.length,
          jumpValue (memOf addr (pre ++ encodeFields L ++ post))
            (addr + pre.length) (L.get ⟨0, hi⟩).1.staticLength) from rfl]
    have hj := jumpValue_at_offset L pre post addr 0 hi hwf hov
    simp only [List.take_zero, List.length_nil, Nat.add_zero] at hj ⊢
    rw [show encodeFields ([] : List (FieldSpec × List Nat)) = [] from rfl]
      at hj ⊢
    simp only [List.length_nil, Nat.add_zero] at hj ⊢
    rw [hj]
  | succ i ih =>
    intro hi
    have hi' : i < L.length := by omega
    have ht : L.take (i + 2) = L.take (i + 1) ++ [L.get ⟨i + 1, hi⟩] := by
      rw [List.take_succ, List.getElem?_eq_getElem hi]
      rfl
    rw [ht, List.map_append, List.reverse_append]
    simp only [List.map_cons, List.map_nil, List.reverse_cons,
      List.reverse_nil, List.nil_append, List.cons_append]
    obtain ⟨k', rest', htail⟩ : ∃ k' rest',
        ((L.take (i + 1)).map (fun p => p.1.staticLength)).reverse
          = k' :: rest' := by
      cases hx : ((L.take (i + 1)).map (fun p => p.1.staticLength)).reverse
          with
      | nil =>
        exfalso
        have hlen := congrArg List.length hx
        rw [List.length_reverse, List.length_map, List.length_take] at hlen
        simp only [List.length_nil] at hlen
        omega
      | cons y ys => exact ⟨y, ys, rfl⟩
    rw [htail, chaseRev_cons_cons, ← htail, ih hi']
    have hsum : footprintP (L.get ⟨i, hi'⟩)
          + (addr + pre.length + (encodeFields (L.take i)).length)
        = addr + pre.length + (encodeFields (L.take (i + 1))).length := by
      rw [offset_succ L i hi']
      omega
    rw [show (((addr + pre.length + (encodeFields (L.take i)).length,
          footprintP (L.get ⟨i, hi'⟩)) : Nat × Nat).2
        + ((addr + pre.length + (encodeFields (L.take i)).length,
          footprintP (L.get ⟨i, hi'⟩)) : Nat × Nat).1) % bfePrime
      = (footprintP (L.get ⟨i, hi'⟩)
          + (addr + pre.length + (encodeFields (L.take i)).length))
          % bfePrime from rfl]
    rw [hsum]
    have hmod : (addr + pre.length + (encodeFields (L.take (i + 1))).length)
        % bfePrime
        = addr + pre.length + (encodeFields (L.take (i + 1))).length := by
      apply Nat.mod_eq_of_lt
      have h1 := offset_le L (i + 1)
      omega
    rw [hmod]
    rw [jumpValue_at_offset L pre post addr (i + 1) hi hwf hov]

/-- The schema-level processing order matches the value-level layout. -/
theorem activeFields_eq_layout_fst (obj : List (FieldSpec × List Nat)) :
    activeFields (schemaOf obj) = (layoutOf obj).map Prod.fst := by
  unfold activeFields schemaOf layoutOf
  rw [← List.map_reverse, List.filter_map]
  rfl

theorem activeKinds_eq_layout (obj : List (FieldSpec × List Nat)) :
    activeKinds (schemaOf obj)
      = (layoutOf obj).map (fun p => p.1.staticLength) := by
  unfold activeKinds
  rw [activeFields_eq_layout_fst, List.map_map]
  rfl

/-- The derived match resolves the name of the processing-index-`i` field to
index `i` when field names are distinct. -/
theorem fieldIndexOf_of_nodup :
    ∀ (fs : List FieldSpec) (i : Nat) (hi : i < fs.length),
      (fs.map FieldSpec.name).Nodup →
      fieldIndexOf fs (fs.get ⟨i, hi⟩).name = some i := by
  intro fs
  induction fs with
  | nil => intro i hi; intro _; exact absurd hi (by simp)
  | cons f fs ih =>
    intro i hi hnd
    rw [List.map_cons, List.nodup_cons] at hnd
    cases i with
    | zero =>
      show fieldIndexOf (f :: fs) f.name = some 0
      unfold fieldIndexOf
      rw [if_pos (by simp)]
    | succ i =>
      have hi' : i < fs.length := by simpa using hi
      have hmem : (fs.get ⟨i, hi'⟩).name ∈ fs.map FieldSpec.name :=
        List.mem_map_of_mem _ (List.get_mem fs i hi')
      have hne : ¬ ((f.name == (fs.get ⟨i, hi'⟩).name) = true) := by
        simp only [beq_iff_eq]
        intro he
        exact hnd.1 (he ▸ hmem)
      show fieldIndexOf (f :: fs) ((fs.get ⟨i, hi'⟩)).name = some (i + 1)
      unfold fieldIndexOf
      rw [if_neg hne, ih i hi' hnd.2]
      rfl

theorem fieldIndexOf_none :
    ∀ (fs : List FieldSpec) (nm : String), (∀ f ∈ fs, f.name ≠ nm) →
      fieldIndexOf fs nm = none := by
  intro fs
  induction fs with
  | nil => intro nm _; rfl
  | cons f fs ih =>
    intro nm h
    unfold fieldIndexOf
    rw [if_neg (by simpa using h f (by simp)), ih nm
      (fun f' hf' => h f' (List.mem_cons_of_mem _ hf'))]
    rfl

theorem layout_wf (obj : List (FieldSpec × List Nat))
    (hwf : ∀ p ∈ obj, ∀ s, p.1.staticLength = some s → p.2.length = s) :
    ∀ p ∈ layoutOf obj, ∀ s, p.1.staticLength = some s → p.2.length = s := by
  intro p hp
  exact hwf p (List.mem_reverse.mp (List.mem_of_mem_filter hp))

/-- The chain code for processing index `i`, executed on the encoded object. -/
theorem startWithJumpIdx_exec (obj : List (FieldSpec × List Nat))
    (addr : Nat) (st : List Nat) (i : Nat) (hi : i < (layoutOf obj).length)
    (hwf : ∀ p ∈ obj, ∀ s, p.1.staticLength = some s → p.2.length = s)
    (hov : addr + (encodeObject obj).length < bfePrime) :
    execInstrs (memOf addr (encodeObject obj))
        (startWithJumpIdx (activeKinds (schemaOf obj)) i) (addr :: st)
      = some (footprintP ((layoutOf obj).get ⟨i, hi⟩)
          :: (addr + (encodeFields ((layoutOf obj).take i)).length) :: st) := by
  have hwfL := layout_wf obj hwf
  have hovL : addr + ([] : List Nat).length
      + (encodeFields (layoutOf obj)).length < bfePrime := by
    simpa [encodeObject] using hov
  have hchase := chaseRev_layout (layoutOf obj) [] [] addr hwfL hovL i hi
  rw [show ([] : List Nat) ++ encodeFields (layoutOf obj) ++ ([] : List Nat)
    = encodeObject obj from by simp [encodeObject]] at hchase
  simp only [List.length_nil, Nat.add_zero] at hchase
  have hcode : startWithJumpIdx (activeKinds (schemaOf obj)) i
      = startWithJumpRev
          (((layoutOf obj).take (i + 1)).map
            (fun p => p.1.staticLength)).reverse := by
    unfold startWithJumpIdx
    rw [activeKinds_eq_layout, ← List.map_take]
  have hne : ((((layoutOf obj).take (i + 1)).map
      (fun p => p.1.staticLength)).reverse) ≠ [] := by
    intro hcon
    have := congrArg List.length hcon
    rw [List.length_reverse, List.length_map, List.length_take] at this
    simp only [List.length_nil] at this
    omega
  have haddr : addr < bfePrime := by omega
  rw [hcode, execInstrs_startWithJumpRev (memOf addr (encodeObject obj)) _
    hne addr st haddr, hchase]

theorem getter_add_one (start : Nat) (h : start + 1 < bfePrime) :
    (1 % bfePrime + start) % bfePrime = start + 1 := by
  rw [Nat.mod_eq_of_lt one_lt_bfePrime, Nat.add_comm]
  exact Nat.mod_eq_of_lt h

/-- By-name resolution: the accessor of the processing-index-`i` field. -/
theorem getFieldStartWithJump_resolves (obj : List (FieldSpec × List Nat))
    (i : Nat) (hi : i < (layoutOf obj).length)
    (hnd : ((activeFields (schemaOf obj)).map FieldSpec.name).Nodup) :
    getFieldStartWithJumpDistance (schemaOf obj)
        ((layoutOf obj).get ⟨i, hi⟩).1.name
      = some (startWithJumpIdx (activeKinds (schemaOf obj)) i) := by
  have hlen : i < (activeFields (schemaOf obj)).length := by
    rw [activeFields_eq_layout_fst, List.length_map]
    exact hi
  have hget : (activeFields (schemaOf obj)).get ⟨i, hlen⟩
      = ((layoutOf obj).get ⟨i, hi⟩).1 := by
    rw [List.get_of_eq (activeFields_eq_layout_fst obj), List.get_map]
  unfold getFieldStartWithJumpDistance
  rw [show ((layoutOf obj).get ⟨i, hi⟩).1.name
    = ((activeFields (schemaOf obj)).get ⟨i, hlen⟩).name from by rw [hget]]
  rw [fieldIndexOf_of_nodup _ i hlen hnd]

/-- The resolved kind at index `i`. -/
theorem activeKinds_getD (obj : List (FieldSpec × List Nat))
    (i : Nat) (hi : i < (layoutOf obj).length) :
    (activeKinds (schemaOf obj)).getD i none
      = ((layoutOf obj).get ⟨i, hi⟩).1.staticLength := by
  rw [activeKinds_eq_layout]
  rw [List.getD_eq_get _ _ (by rw [List.length_map]; exact hi), List.get_map]

/-- C2 (amended): for every field of a record schema, the generated
`get_field_start_with_jump_distance` code, run on a stack holding a pointer
to the encoded object, leaves `*field_start` and the jump distance to the
next field's start.  For a statically sized field `*field_start = *field`
and the jump distance is the compile-time size.  For a dynamically sized
field, `*field_start` points at the one-word length prefix
(`*field = *field_start + 1`, as computed by `get_field`), and the jump
distance equals `length + 1` — NOT `length + 2` as claimed — where `length`
is the value read from memory at `*field_start`.  For the schema
`[a: dynamic, b: static(1)]`, `field_start_and_jump("a")` reports a start
just past `b` and jump distance `len(a) + 1`. -/
theorem field_start_and_jump_amended (obj : List (FieldSpec × List Nat))
    (addr : Nat) (st : List Nat) (i : Nat) (hi : i < (layoutOf obj).length)
    (hwf : ∀ p ∈ obj, ∀ s, p.1.staticLength = some s → p.2.length = s)
    (hnd : ((activeFields (schemaOf obj)).map FieldSpec.name).Nodup)
    (hov : addr + (encodeObject obj).length < bfePrime) :
    getFieldStartWithJumpDistance (schemaOf obj)
        ((layoutOf obj).get ⟨i, hi⟩).1.name
      = some (startWithJumpIdx (activeKinds (schemaOf obj)) i) ∧
    getFieldCode (schemaOf obj) ((layoutOf obj).get ⟨i, hi⟩).1.name
      = some (startWithJumpIdx (activeKinds (schemaOf obj)) i
          ++ getterPostprocessCode ((layoutOf obj).get ⟨i, hi⟩).1.staticLength) ∧
    execInstrs (memOf addr (encodeObject obj))
        (startWithJumpIdx (activeKinds (schemaOf obj)) i) (addr :: st)
      = some (footprintP ((layoutOf obj).get ⟨i, hi⟩)
          :: (addr + (encodeFields ((layoutOf obj).take i)).length) :: st) ∧
    (∀ s, ((layoutOf obj).get ⟨i, hi⟩).1.staticLength = some s →
      footprintP ((layoutOf obj).get ⟨i, hi⟩) = s ∧
      execInstrs (memOf addr (encodeObject obj))
          (startWithJumpIdx (activeKinds (schemaOf obj)) i
            ++ getterPostprocessCode
              ((layoutOf obj).get ⟨i, hi⟩).1.staticLength)
          (addr :: st)
        = some ((addr + (encodeFields ((layoutOf obj).take i)).length)
            :: st)) ∧
    (((layoutOf obj).get ⟨i, hi⟩).1.staticLength = none →
      memOf addr (encodeObject obj)
          (addr + (encodeFields ((layoutOf obj).take i)).length)
        = ((layoutOf obj).get ⟨i, hi⟩).2.length ∧
      footprintP ((layoutOf obj).get ⟨i, hi⟩)
        = memOf addr (encodeObject obj)
            (addr + (encodeFields ((layoutOf obj).take i)).length) + 1 ∧
      execInstrs (memOf addr (encodeObject obj))
          (startWithJumpIdx (activeKinds (schemaOf obj)) i
            ++ getterPostprocessCode
              ((layoutOf obj).get ⟨i, hi⟩).1.staticLength)
          (addr :: st)
        = some ((addr + (encodeFields ((layoutOf obj).take i)).length + 1)
            :: st)) := by
  have hchain := startWithJumpIdx_exec obj addr st i hi hwf hov
  have hoffle := offset_add_footprint_le (layoutOf obj) i hi
  have hencL : (encodeFields (layoutOf obj)).length
      = (encodeObject obj).length := rfl
  refine ⟨getFieldStartWithJump_resolves obj i hi hnd, ?_, hchain, ?_, ?_⟩
  · unfold getFieldCode
    have hlen : i < (activeFields (schemaOf obj)).length := by
      rw [activeFields_eq_layout_fst, List.length_map]
      exact hi
    have hget : (activeFields (schemaOf obj)).get ⟨i, hlen⟩
        = ((layoutOf obj).get ⟨i, hi⟩).1 := by
      rw [List.get_of_eq (activeFields_eq_layout_fst obj), List.get_map]
    rw [show ((layoutOf obj).get ⟨i, hi⟩).1.name
      = ((activeFields (schemaOf obj)).get ⟨i, hlen⟩).name from by rw [hget]]
    rw [fieldIndexOf_of_nodup _ i hlen hnd]
    show some (startWithJumpIdx (activeKinds (schemaOf obj)) i
        ++ getterPostprocessCode ((activeKinds (schemaOf obj)).getD i none))
      = some (startWithJumpIdx (activeKinds (schemaOf obj)) i
          ++ getterPostprocessCode ((layoutOf obj).get ⟨i, hi⟩).1.staticLength)
    rw [activeKinds_getD obj i hi]
  · intro s hs
    have hfp : footprintP ((layoutOf obj).get ⟨i, hi⟩) = s := by
      unfold footprintP encodeFieldP
      rw [hs]
      exact layout_wf obj hwf _ (List.get_mem _ i hi) s hs
    refine ⟨hfp, ?_⟩
    rw [execInstrs_append, hchain]
    simp only [Option.bind_eq_bind, Option.some_bind, hs]
    rfl
  · intro hdyn
    have hpre : memOf addr (encodeObject obj)
        (addr + (encodeFields ((layoutOf obj).take i)).length)
        = ((layoutOf obj).get ⟨i, hi⟩).2.length := by
      have := memOf_prefix_read (layoutOf obj) [] [] addr i hi hdyn
      rw [show ([] : List Nat) ++ encodeFields (layoutOf obj)
          ++ ([] : List Nat) = encodeObject obj from by
        simp [encodeObject]] at this
      simpa using this
    have hfp : footprintP ((layoutOf obj).get ⟨i, hi⟩)
        = ((layoutOf obj).get ⟨i, hi⟩).2.length + 1 := by
      unfold footprintP encodeFieldP
      rw [hdyn]
      rfl
    have hfp1 : 1 ≤ footprintP ((layoutOf obj).get ⟨i, hi⟩) := by omega
    refine ⟨hpre, by rw [hpre, hfp], ?_⟩
    rw [execInstrs_append, hchain]
    simp only [Option.bind_eq_bind, Option.some_bind, hdyn]
    rw [show execInstrs (memOf addr (encodeObject obj))
        (getterPostprocessCode none)
        (footprintP ((layoutOf obj).get ⟨i, hi⟩)
          :: (addr + (encodeFields ((layoutOf obj).take i)).length) :: st)
      = some ((1 % bfePrime
          + (addr + (encodeFields ((layoutOf obj).take i)).length))
            % bfePrime :: st) from rfl]
    rw [getter_add_one _ (by omega)]

/-- C2 counterexample: for the schema `[a: dynamic, b: static(1)]` with
`a`'s payload `[5, 7]` and `b = [9]`, encoded at address 100 as
`[9, 2, 5, 7]`, `field_start_and_jump("a")` computes start `101` (just past
`b`, holding the length prefix `2`) and jump distance `3 = 2 + 1`, not
`2 + 2` as the claim states. -/
theorem jump_distance_claim_false :
    getFieldStartWithJumpDistance (schemaOf cexObj) "a"
      = some [Instr.push 1, Instr.add, Instr.readMem1, Instr.push 1,
          Instr.add, Instr.swap1, Instr.push 1, Instr.add] ∧
    execInstrs (memOf 100 (encodeObject cexObj))
        [Instr.push 1, Instr.add, Instr.readMem1, Instr.push 1, Instr.add,
          Instr.swap1, Instr.push 1, Instr.add] (100 :: ([] : List Nat))
      = some [3, 101] ∧
    memOf 100 (encodeObject cexObj) 101 = 2 ∧
    (3 : Nat) ≠ 2 + 2 := by
  refine ⟨by decide, by decide, by decide, by decide⟩

/-- Witness for C2 (amended) at the concrete schema, field `a` (processing
index 1), address 100. -/
theorem field_start_and_jump_amended_witness :
    getFieldStartWithJumpDistance (schemaOf cexObj) "a"
      = some (startWithJumpIdx (activeKinds (schemaOf cexObj)) 1) ∧
    execInstrs (memOf 100 (encodeObject cexObj))
        (startWithJumpIdx (activeKinds (schemaOf cexObj)) 1)
        (100 :: ([] : List Nat))
      = some [3, 101] ∧
    memOf 100 (encodeObject cexObj) 101 = 2 ∧
    execInstrs (memOf 100 (encodeObject cexObj))
        (startWithJumpIdx (activeKinds (schemaOf cexObj)) 1
          ++ getterPostprocessCode none) (100 :: ([] : List Nat))
      = some [102] := by
  have h := field_start_and_jump_amended cexObj 100 [] 1 (by decide)
    (by
      intro p hp s hs
      simp only [cexObj, List.mem_cons, List.not_mem_nil, or_false]
        at hp
      rcases hp with rfl | rfl
      · exact absurd hs (by simp [fieldA])
      · simp only [fieldB, Option.some.injEq] at hs
        simp [← hs])
    (by decide) (by decide)
  obtain ⟨h1, _, h3, _, h5⟩ := h
  have hname : ((layoutOf cexObj).get ⟨1, by decide⟩).1.name = "a" := rfl
  have hdyn : ((layoutOf cexObj).get ⟨1, by decide⟩).1.staticLength = none :=
    rfl
  obtain ⟨hpre, _, hget⟩ := h5 hdyn
  refine ⟨?_, ?_, ?_, ?_⟩
  · rw [← hname]
    exact h1
  · rw [show some [3, 101]
      = some (footprintP ((layoutOf cexObj).get ⟨1, by decide⟩)
          :: (100 + (encodeFields ((layoutOf cexObj).take 1)).length)
          :: ([] : List Nat)) from by decide]
    exact h3
  · rw [show (2 : Nat)
      = ((layoutOf cexObj).get ⟨1, by decide⟩).2.length from by decide]
    exact hpre
  · rw [show some [102]
      = some ((100 + (encodeFields ((layoutOf cexObj).take 1)).length + 1)
          :: ([] : List Nat)) from by decide]
    rw [show getterPostprocessCode none
      = getterPostprocessCode
          ((layoutOf cexObj).get ⟨1, by decide⟩).1.staticLength from rfl]
    exact hget

/-- C3: the encoding processes fields in the reverse of declaration order
(ignored fields dropped): the last declared field is adjacent to the base
pointer and its accessor is the O(1) base case (just its jumper, leaving the
base pointer itself as field start); the accessor of every later processing
index `i+1` is the preceding field's start-with-jump code followed by `add`
and its own jumper, and semantically the computed start is the preceding
field's start plus its jump distance. -/
theorem field_order_reversed_and_chained (obj : List (FieldSpec × List Nat))
    (addr : Nat) (st : List Nat) (i : Nat)
    (hi1 : i + 1 < (layoutOf obj).length)
    (hwf : ∀ p ∈ obj, ∀ s, p.1.staticLength = some s → p.2.length = s)
    (hov : addr + (encodeObject obj).length < bfePrime) :
    (layoutOf obj).map Prod.fst
      = ((obj.map Prod.fst).filter (fun f => !f.ignored)).reverse ∧
    ((layoutOf obj).map Prod.fst).head?
      = ((obj.map Prod.fst).filter (fun f => !f.ignored)).getLast? ∧
    startWithJumpIdx (activeKinds (schemaOf obj)) 0
      = jumperCode ((activeKinds (schemaOf obj)).getD 0 none) ∧
    execInstrs (memOf addr (encodeObject obj))
        (startWithJumpIdx (activeKinds (schemaOf obj)) 0) (addr :: st)
      = some (footprintP ((layoutOf obj).get
            ⟨0, Nat.lt_of_le_of_lt (Nat.zero_le _) hi1⟩)
          :: addr :: st) ∧
    startWithJumpIdx (activeKinds (schemaOf obj)) (i + 1)
      = startWithJumpIdx (activeKinds (schemaOf obj)) i
        ++ [Instr.add]
        ++ jumperCode ((activeKinds (schemaOf obj)).getD (i + 1) none) ∧
    execInstrs (memOf addr (encodeObject obj))
        (startWithJumpIdx (activeKinds (schemaOf obj)) (i + 1)) (addr :: st)
      = some (footprintP ((layoutOf obj).get ⟨i + 1, hi1⟩)
          :: ((addr + (encodeFields ((layoutOf obj).take i)).length)
              + footprintP ((layoutOf obj).get
                  ⟨i, Nat.lt_of_succ_lt hi1⟩)) :: st) := by
  have h0 : 0 < (layoutOf obj).length :=
    Nat.lt_of_le_of_lt (Nat.zero_le _) hi1
  have hkslen : (activeKinds (schemaOf obj)).length
      = (layoutOf obj).length := by
    rw [activeKinds_eq_layout, List.length_map]
  have hrev : (layoutOf obj).map Prod.fst
      = ((obj.map Prod.fst).filter (fun f => !f.ignored)).reverse := by
    rw [← activeFields_eq_layout_fst]
    unfold activeFields schemaOf
    rw [List.filter_reverse]
  refine ⟨hrev, ?_, ?_, ?_, ?_, ?_⟩
  · rw [hrev, List.head?_reverse]
  · unfold startWithJumpIdx
    have hk0 : (activeKinds (schemaOf obj)).take 1
        = [(activeKinds (schemaOf obj)).get ⟨0, by omega⟩] := by
      rw [List.take_succ, List.getElem?_eq_getElem (by omega)]
      rfl
    rw [hk0]
    rw [show ([(activeKinds (schemaOf obj)).get ⟨0, by omega⟩]).reverse
      = [(activeKinds (schemaOf obj)).get ⟨0, by omega⟩] from rfl]
    rw [show startWithJumpRev [(activeKinds (schemaOf obj)).get ⟨0, by omega⟩]
      = jumperCode ((activeKinds (schemaOf obj)).get ⟨0, by omega⟩) from rfl]
    rw [List.getD_eq_get _ _ (by omega)]
  · have := startWithJumpIdx_exec obj addr st 0 h0 hwf hov
    rw [show (encodeFields ((layoutOf obj).take 0)).length = 0 from rfl,
      Nat.add_zero] at this
    exact this
  · unfold startWithJumpIdx
    have hk1 : (activeKinds (schemaOf obj)).take (i + 2)
        = (activeKinds (schemaOf obj)).take (i + 1)
          ++ [(activeKinds (schemaOf obj)).get ⟨i + 1, by omega⟩] := by
      rw [List.take_succ, List.getElem?_eq_getElem (by omega)]
      rfl
    rw [hk1, List.reverse_append]
    rw [show ([(activeKinds (schemaOf obj)).get ⟨i + 1, by omega⟩]).reverse
      = [(activeKinds (schemaOf obj)).get ⟨i + 1, by omega⟩] from rfl]
    obtain ⟨k', rest', htail⟩ : ∃ k' rest',
        ((activeKinds (schemaOf obj)).take (i + 1)).reverse
          = k' :: rest' := by
      cases hx : ((activeKinds (schemaOf obj)).take (i + 1)).reverse with
      | nil =>
        exfalso
        have hlen := congrArg List.length hx
        rw [List.length_reverse, List.length_take] at hlen
        simp only [List.length_nil] at hlen
        omega
      | cons y ys => exact ⟨y, ys, rfl⟩
    rw [htail]
    rw [show ([(activeKinds (schemaOf obj)).get ⟨i + 1, by omega⟩] : List _)
        ++ k' :: rest'
      = (activeKinds (schemaOf obj)).get ⟨i + 1, by omega⟩ :: k' :: rest'
      from rfl]
    rw [show startWithJumpRev
        ((activeKinds (schemaOf obj)).get ⟨i + 1, by omega⟩ :: k' :: rest')
      = startWithJumpRev (k' :: rest') ++ [Instr.add]
        ++ jumperCode ((activeKinds (schemaOf obj)).get ⟨i + 1, by omega⟩)
      from rfl]
    rw [← htail, List.getD_eq_get _ _ (by omega)]
  · have hstep := startWithJumpIdx_exec obj addr st (i + 1) hi1 hwf hov
    rw [hstep]
    rw [offset_succ (layoutOf obj) i (Nat.lt_of_succ_lt hi1)]
    rw [Nat.add_assoc]

/-- Witness for C3 at the concrete schema `[a: dynamic, b: static(1)]`:
processing index 0 is `b` (the last declared field, start = base pointer
100), and the accessor of `a` chains through `b`'s accessor. -/
theorem field_order_reversed_and_chained_witness :
    ((layoutOf cexObj).map Prod.fst
      = ((cexObj.map Prod.fst).filter (fun f => !f.ignored)).reverse) ∧
    startWithJumpIdx (activeKinds (schemaOf cexObj)) 0 = [Instr.push 1] ∧
    execInstrs (memOf 100 (encodeObject cexObj))
        (startWithJumpIdx (activeKinds (schemaOf cexObj)) 0)
        (100 :: ([] : List Nat))
      = some [1, 100] ∧
    startWithJumpIdx (activeKinds (schemaOf cexObj)) 1
      = startWithJumpIdx (activeKinds (schemaOf cexObj)) 0 ++ [Instr.add]
        ++ jumperCode none ∧
    execInstrs (memOf 100 (encodeObject cexObj))
        (startWithJumpIdx (activeKinds (schemaOf cexObj)) 1)
        (100 :: ([] : List Nat))
      = some [3, 101] := by
  have h := field_order_reversed_and_chained cexObj 100 [] 0 (by decide)
    (by
      intro p hp s hs
      simp only [cexObj, List.mem_cons, List.not_mem_nil, or_false]
        at hp
      rcases hp with rfl | rfl
      · exact absurd hs (by simp [fieldA])
      · simp only [fieldB, Option.some.injEq] at hs
        simp [← hs])
    (by decide)
  obtain ⟨ha, _, hc, hd, he, hf⟩ := h
  refine ⟨ha, ?_, ?_, ?_, ?_⟩
  · rw [hc]
    rfl
  · rw [show some [1, 100]
      = some (footprintP ((layoutOf cexObj).get ⟨0, by decide⟩)
          :: 100 :: ([] : List Nat)) from by decide]
    rw [show footprintP ((layoutOf cexObj).get ⟨0, by decide⟩)
      = footprintP ((layoutOf cexObj).get
          ⟨0, Nat.lt_of_le_of_lt (Nat.zero_le _) (show 0 + 1 < (layoutOf cexObj).length by decide)⟩)
      from rfl]
    exact hd
  · rw [he]
    rfl
  · rw [show some [3, 101]
      = some (footprintP ((layoutOf cexObj).get ⟨1, by decide⟩)
          :: ((100 + (encodeFields ((layoutOf cexObj).take 0)).length)
              + footprintP ((layoutOf cexObj).get ⟨0, by decide⟩))
          :: ([] : List Nat)) from by decide]
    exact hf

theorem decodeFieldsMem_cons_static (mem : Nat → Nat) (s : Nat)
    (ks : List (Option Nat)) (a : Nat) :
    decodeFieldsMem mem (some s :: ks) a
      = match decodeFieldsMem mem ks ((a + s) % bfePrime) with
        | none => none
        | some r =>
          some (((List.range s).map
            (fun j => mem ((a + j) % bfePrime) % bfePrime)) :: r.1, r.2) :=
  rfl

theorem decodeFieldsMem_cons_dyn (mem : Nat → Nat)
    (ks : List (Option Nat)) (a : Nat) :
    decodeFieldsMem mem (none :: ks) a
      = match decodeFieldsMem mem ks
          (((a + 1) % bfePrime + mem a % bfePrime) % bfePrime) with
        | none => none
        | some r =>
          some (((List.range (mem a % bfePrime)).map
            (fun j => mem (((a + 1) % bfePrime + j) % bfePrime) % bfePrime))
              :: r.1, r.2) :=
  rfl

/-- Reading a contiguous slice of encoded memory gives back the stored
words. -/
theorem readSlice (ws pre post : List Nat) (addr : Nat)
    (hov : addr + pre.length + ws.length < bfePrime)
    (hw : ∀ w ∈ ws, w < bfePrime) :
    (List.range ws.length).map
        (fun j => memOf addr (pre ++ ws ++ post)
          ((addr + pre.length + j) % bfePrime) % bfePrime)
      = ws := by
  apply List.ext_getElem
  · simp
  · intro n h1 h2
    simp only [List.getElem_map, List.getElem_range]
    rw [show (addr + pre.length + n) % bfePrime = addr + (pre.length + n)
      from by
        rw [Nat.mod_eq_of_lt (by omega)]
        omega]
    rw [memOf_read]
    rw [List.getD_append _ _ _ _ (by rw [List.length_append]; omega)]
    rw [List.getD_append_right pre ws _ _ (Nat.le_add_right _ _),
      Nat.add_sub_cancel_left]
    rw [List.getD_eq_getElem ws 0 h2]
    exact Nat.mod_eq_of_lt (hw _ (List.getElem_mem h2))

/-- The generated record decoder, run on the encoding laid down at `addr`
after `pre`, consumes exactly the encoding and reproduces every payload. -/
theorem decodeFieldsMem_spec :
    ∀ (L : List (FieldSpec × List Nat)) (pre : List Nat) (addr : Nat),
      (∀ p ∈ L, ∀ s, p.1.staticLength = some s → p.2.length = s) →
      (∀ p ∈ L, ∀ w ∈ p.2, w < bfePrime) →
      addr + pre.length + (encodeFields L).length < bfePrime →
      decodeFieldsMem (memOf addr (pre ++ encodeFields L))
          (L.map (fun p => p.1.staticLength)) (addr + pre.length)
        = some (L.map Prod.snd,
            addr + pre.length + (encodeFields L).length) := by
  intro L
  induction L with
  | nil =>
    intro pre addr _ _ _
    rw [show encodeFields [] = [] from rfl]
    simp [decodeFieldsMem]
  | cons p L ih =>
    intro pre addr hwf hw hov
    have hwp : ∀ w ∈ p.2, w < bfePrime := hw p (by simp)
    have hwfL : ∀ q ∈ L, ∀ s, q.1.staticLength = some s → q.2.length = s :=
      fun q hq => hwf q (List.mem_cons_of_mem _ hq)
    have hwL : ∀ q ∈ L, ∀ w ∈ q.2, w < bfePrime :=
      fun q hq => hw q (List.mem_cons_of_mem _ hq)
    rw [List.map_cons]
    cases hsl : p.1.staticLength with
    | some s =>
      have hlen : p.2.length = s := hwf p (by simp) s hsl
      have henc : encodeFields (p :: L) = p.2 ++ encodeFields L := by
        rw [encodeFields_cons]
        congr 1
        unfold encodeFieldP
        rw [hsl]
      have hlenb : addr + pre.length + p.2.length + (encodeFields L).length
          < bfePrime := by
        rw [henc, List.length_append] at hov
        omega
      rw [decodeFieldsMem_cons_static, henc, ← List.append_assoc]
      have hrec := ih (pre ++ p.2) addr hwfL hwL
        (by rw [List.length_append]; omega)
      rw [List.length_append] at hrec
      rw [show (addr + pre.length + s) % bfePrime
          = addr + (pre.length + p.2.length) from by
        rw [← hlen, Nat.mod_eq_of_lt (by omega)]
        omega]
      rw [hrec]
      rw [show (List.range s).map
          (fun j => memOf addr (pre ++ p.2 ++ encodeFields L)
            ((addr + pre.length + j) % bfePrime) % bfePrime) = p.2 from by
        rw [← hlen]
        exact readSlice p.2 pre (encodeFields L) addr (by omega) hwp]
      rw [List.map_cons, List.length_append]
      rw [show addr + (pre.length + p.2.length) + (encodeFields L).length
        = addr + pre.length + (p.2.length + (encodeFields L).length)
        from by omega]
    | none =>
      have henc : encodeFields (p :: L)
          = (p.2.length :: p.2) ++ encodeFields L := by
        rw [encodeFields_cons]
        congr 1
        unfold encodeFieldP
        rw [hsl]
      have hlen1 : (encodeFields (p :: L)).length
          = p.2.length + 1 + (encodeFields L).length := by
        rw [henc, List.length_append, List.length_cons]
      have hpre : memOf addr (pre ++ encodeFields (p :: L))
          (addr + pre.length) = p.2.length := by
        rw [memOf_read, henc]
        rw [List.getD_append_right pre _ _ _ (Nat.le_refl _), Nat.sub_self]
        rfl
      rw [decodeFieldsMem_cons_dyn, hpre,
        Nat.mod_eq_of_lt (show p.2.length < bfePrime by omega),
        Nat.mod_eq_of_lt (show addr + pre.length + 1 < bfePrime by omega)]
      have hrec := ih (pre ++ (p.2.length :: p.2)) addr hwfL hwL
        (by rw [List.length_append, List.length_cons]; omega)
      rw [List.length_append, List.length_cons] at hrec
      rw [henc, ← List.append_assoc]
      rw [show (addr + pre.length + 1 + p.2.length) % bfePrime
        = addr + (pre.length + (p.2.length + 1)) from by
          rw [Nat.mod_eq_of_lt (by omega)]
          omega]
      rw [hrec]
      rw [show (List.range p.2.length).map
          (fun j => memOf addr (pre ++ (p.2.length :: p.2) ++ encodeFields L)
            ((addr + pre.length + 1 + j) % bfePrime) % bfePrime)
          = p.2 from by
        have hs := readSlice p.2 (pre ++ [p.2.length]) (encodeFields L) addr
          (by rw [List.length_append, List.length_singleton]; omega) hwp
        rw [show pre ++ (p.2.length :: p.2) ++ encodeFields L
          = pre ++ [p.2.length] ++ p.2 ++ encodeFields L from by simp]
        rw [show addr + pre.length + 1
          = addr + (pre ++ [p.2.length]).length from by
            rw [List.length_append, List.length_singleton]
            omega]
        exact hs]
      rw [List.map_cons]
      show some (p.2 :: List.map Prod.snd L,
          addr + (pre.length + (p.2.length + 1)) + (encodeFields L).length)
        = some (p.2 :: List.map Prod.snd L,
          addr + pre.length + ((p.2.length :: p.2) ++ encodeFields L).length)
      exact congrArg (fun n => some (p.2 :: List.map Prod.snd L, n)) (by
        rw [List.length_append, List.length_cons]
        omega)

theorem layout_snd_reverse (obj : List (FieldSpec × List Nat)) :
    ((layoutOf obj).map Prod.snd).reverse
      = (obj.filter (fun p => !p.1.ignored)).map Prod.snd := by
  unfold layoutOf
  rw [List.filter_reverse, List.map_reverse, List.reverse_reverse]

theorem rebuild_cons (f : FieldSpec) (fs : List FieldSpec)
    (vs : List (List Nat)) :
    rebuild (f :: fs) vs =
      (if f.ignored then
        match rebuild fs vs with
        | none => none
        | some rest => some ((f, f.dflt) :: rest)
      else
        match vs with
        | [] => none
        | v :: vs' =>
          match rebuild fs vs' with
          | none => none
          | some rest => some ((f, v) :: rest)) := rfl

/-- Rebuilding from the declaration-order payloads of the non-ignored fields
produces the original record with ignored fields defaulted. -/
theorem rebuild_filter :
    ∀ obj : List (FieldSpec × List Nat),
      rebuild (schemaOf obj)
          ((obj.filter (fun p => !p.1.ignored)).map Prod.snd)
        = some (maskIgnored obj) := by
  intro obj
  induction obj with
  | nil => rfl
  | cons p obj ih =>
    show rebuild (p.1 :: schemaOf obj) _ = _
    cases hig : p.1.ignored with
    | true =>
      have hf : (p :: obj).filter (fun q => !q.1.ignored)
          = obj.filter (fun q => !q.1.ignored) := by
        simp [List.filter_cons, hig]
      rw [hf]
      rw [rebuild_cons, if_pos hig, ih]
      rw [show maskIgnored (p :: obj)
        = (p.1, p.1.dflt) :: maskIgnored obj from by
          unfold maskIgnored
          rw [List.map_cons, if_pos hig]]
    | false =>
      have hf : (p :: obj).filter (fun q => !q.1.ignored)
          = p :: obj.filter (fun q => !q.1.ignored) := by
        simp [List.filter_cons, hig]
      rw [hf, List.map_cons]
      rw [rebuild_cons, if_neg (by rw [hig]; simp)]
      show (match rebuild (schemaOf obj)
          ((obj.filter (fun q => !q.1.ignored)).map Prod.snd) with
        | none => none
        | some rest => some ((p.1, p.2) :: rest)) = _
      rw [ih]
      rw [show maskIgnored (p :: obj) = p :: maskIgnored obj from by
        unfold maskIgnored
        rw [List.map_cons, if_neg (by rw [hig]; simp)]]

theorem maskIgnored_of_no_ignored (obj : List (FieldSpec × List Nat))
    (h : ∀ p ∈ obj, p.1.ignored = false) : maskIgnored obj = obj := by
  unfold maskIgnored
  rw [show obj.map (fun p => if p.1.ignored then (p.1, p.1.dflt) else p)
    = obj.map id from List.map_congr_left (fun p hp => by
      rw [if_neg (by rw [h p hp]; simp)]
      rfl)]
  exact List.map_id obj

/-- Decoding the whole record from the encoded memory. -/
theorem decodeObject_spec (obj : List (FieldSpec × List Nat)) (addr : Nat)
    (hwf : ∀ p ∈ obj, ∀ s, p.1.staticLength = some s → p.2.length = s)
    (hw : ∀ p ∈ obj, ∀ w ∈ p.2, w < bfePrime)
    (hov : addr + (encodeObject obj).length < bfePrime) :
    decodeObject (schemaOf obj) (memOf addr (encodeObject obj)) addr
      = some (maskIgnored obj) ∧
    decodeFieldsMem (memOf addr (encodeObject obj))
        (activeKinds (schemaOf obj)) addr
      = some ((layoutOf obj).map Prod.snd,
          addr + (encodeObject obj).length) := by
  have hwL : ∀ q ∈ layoutOf obj, ∀ w ∈ q.2, w < bfePrime := by
    intro q hq
    exact hw q (List.mem_reverse.mp (List.mem_of_mem_filter hq))
  have hdec := decodeFieldsMem_spec (layoutOf obj) [] addr
    (layout_wf obj hwf) hwL (by simpa [encodeObject] using hov)
  rw [show ([] : List Nat) ++ encodeFields (layoutOf obj)
    = encodeObject obj from by simp [encodeObject]] at hdec
  simp only [List.length_nil, Nat.add_zero] at hdec
  rw [← activeKinds_eq_layout] at hdec
  refine ⟨?_, hdec⟩
  unfold decodeObject
  rw [hdec]
  show rebuild (schemaOf obj) ((layoutOf obj).map Prod.snd).reverse = _
  rw [layout_snd_reverse, rebuild_filter]

/-- C4: for every record value whose type derives `TasmObject` (schemas
mixing statically and dynamically sized fields, no ignored fields),
encoding into memory and then `decode_from_memory` at the same address
returns exactly the original value; the field decoders together consume
exactly the encoding (the cursor ends at `addr + |encoding|`), each field
taking its static size or the word count given by its length prefix. -/
theorem encode_decode_roundtrip (obj : List (FieldSpec × List Nat))
    (addr : Nat)
    (hwf : ∀ p ∈ obj, ∀ s, p.1.staticLength = some s → p.2.length = s)
    (hw : ∀ p ∈ obj, ∀ w ∈ p.2, w < bfePrime)
    (hnoign : ∀ p ∈ obj, p.1.ignored = false)
    (hov : addr + (encodeObject obj).length < bfePrime) :
    decodeObject (schemaOf obj) (memOf addr (encodeObject obj)) addr
      = some obj ∧
    decodeFieldsMem (memOf addr (encodeObject obj))
        (activeKinds (schemaOf obj)) addr
      = some ((layoutOf obj).map Prod.snd,
          addr + (encodeObject obj).length) := by
  have h := decodeObject_spec obj addr hwf hw hov
  rw [maskIgnored_of_no_ignored obj hnoign] at h
  exact h

/-- Witness for C4 at the concrete mixed schema, address 100: the stored
record `[(a, [5,7]), (b, [9])]` decodes back exactly, the cursor ending
right after the 4-word encoding. -/
theorem encode_decode_roundtrip_witness :
    decodeObject (schemaOf cexObj) (memOf 100 (encodeObject cexObj)) 100
      = some cexObj ∧
    decodeFieldsMem (memOf 100 (encodeObject cexObj))
        (activeKinds (schemaOf cexObj)) 100
      = some ([[9], [5, 7]], 104) := by
  have h := encode_decode_roundtrip cexObj 100
    (by
      intro p hp s hs
      simp only [cexObj, List.mem_cons, List.not_mem_nil, or_false] at hp
      rcases hp with rfl | rfl
      · exact absurd hs (by simp [fieldA])
      · simp only [fieldB, Option.some.injEq] at hs
        simp [← hs])
    (by decide) (by decide) (by decide)
  refine ⟨h.1, ?_⟩
  rw [show (some ([[9], [5, 7]], 104)
      : Option (List (List Nat) × Nat))
    = some ((layoutOf cexObj).map Prod.snd,
        100 + (encodeObject cexObj).length) from by decide]
  exact h.2

/-- Witness for C7: the acyclic `dummyGen` graph imports with fuel 3, a
re-import is a no-op, and the cyclic graph fails for fuel 5. -/
theorem import_termination_and_cycle_witness :
    (importFuel dummyGen 3 Library.new "a").isSome ∧
    importFuel dummyGen 1 (Library.new.insertSnippet "a" [Instr.push 1]) "a"
      = some ("a", Library.new.insertSnippet "a" [Instr.push 1]) ∧
    importFuel cyclicGen 5 Library.new "a" = none := by
  have hacyc : ∀ n d, d ∈ (dummyGen n).1 → dummyRank d < dummyRank n := by
    intro n d hd
    unfold dummyGen at hd
    split_ifs at hd with h1 h2 h3 h4
    · subst h1
      rcases (by simpa using hd : d = "b" ∨ d = "c") with rfl | rfl <;> decide
    · subst h2
      have : d = "c" := by simpa using hd
      subst this
      decide
    · simp at hd
    · simp at hd
    · simp at hd
  have h := import_termination_and_cycle dummyGen dummyRank hacyc
  exact ⟨h.1 3 "a" Library.new (by decide),
    h.2.1 0 (Library.new.insertSnippet "a" [Instr.push 1]) "a" (by decide),
    h.2.2.2 5⟩

theorem maskIgnored_congr :
    ∀ (o₁ o₂ : List (FieldSpec × List Nat)),
      o₁.map Prod.fst = o₂.map Prod.fst →
      o₁.filter (fun p => !p.1.ignored)
        = o₂.filter (fun p => !p.1.ignored) →
      maskIgnored o₁ = maskIgnored o₂ := by
  intro o₁
  induction o₁ with
  | nil =>
    intro o₂ hmap _
    cases o₂ with
    | nil => rfl
    | cons q o₂ => exact absurd hmap (by simp)
  | cons p o₁ ih =>
    intro o₂ hmap hfil
    cases o₂ with
    | nil => exact absurd hmap (by simp)
    | cons q o₂ =>
      rw [List.map_cons, List.map_cons] at hmap
      injection hmap with h1 h2
      cases hig : p.1.ignored with
      | true =>
        have higq : q.1.ignored = true := by rw [← h1]; exact hig
        rw [show (p :: o₁).filter (fun r => !r.1.ignored)
            = o₁.filter (fun r => !r.1.ignored) from by
          simp [List.filter_cons, hig]] at hfil
        rw [show (q :: o₂).filter (fun r => !r.1.ignored)
            = o₂.filter (fun r => !r.1.ignored) from by
          simp [List.filter_cons, higq]] at hfil
        rw [show maskIgnored (p :: o₁)
          = (p.1, p.1.dflt) :: maskIgnored o₁ from by
            unfold maskIgnored
            rw [List.map_cons, if_pos hig]]
        rw [show maskIgnored (q :: o₂)
          = (q.1, q.1.dflt) :: maskIgnored o₂ from by
            unfold maskIgnored
            rw [List.map_cons, if_pos higq]]
        rw [h1, ih o₂ h2 hfil]
      | false =>
        have higq : q.1.ignored = false := by rw [← h1]; exact hig
        rw [show (p :: o₁).filter (fun r => !r.1.ignored)
            = p :: o₁.filter (fun r => !r.1.ignored) from by
          simp [List.filter_cons, hig]] at hfil
        rw [show (q :: o₂).filter (fun r => !r.1.ignored)
            = q :: o₂.filter (fun r => !r.1.ignored) from by
          simp [List.filter_cons, higq]] at hfil
        injection hfil with h3 h4
        rw [show maskIgnored (p :: o₁) = p :: maskIgnored o₁ from by
            unfold maskIgnored
            rw [List.map_cons, if_neg (by rw [hig]; simp)]]
        rw [show maskIgnored (q :: o₂) = q :: maskIgnored o₂ from by
            unfold maskIgnored
            rw [List.map_cons, if_neg (by rw [higq]; simp)]]
        rw [h3, ih o₂ h2 h4]

/-- Masking the ignored fields leaves the non-ignored fields untouched. -/
theorem maskIgnored_filter :
    ∀ obj : List (FieldSpec × List Nat),
      (maskIgnored obj).filter (fun p => !p.1.ignored)
        = obj.filter (fun p => !p.1.ignored) := by
  intro obj
  induction obj with
  | nil => rfl
  | cons p obj ih =>
    cases hig : p.1.ignored with
    | true =>
      rw [show maskIgnored (p :: obj)
        = (p.1, p.1.dflt) :: maskIgnored obj from by
          unfold maskIgnored
          rw [List.map_cons, if_pos hig]]
      rw [show ((p.1, p.1.dflt) :: maskIgnored obj).filter
            (fun q => !q.1.ignored)
          = (maskIgnored obj).filter (fun q => !q.1.ignored) from by
        simp [List.filter_cons, hig]]
      rw [show (p :: obj).filter (fun q => !q.1.ignored)
          = obj.filter (fun q => !q.1.ignored) from by
        simp [List.filter_cons, hig]]
      exact ih
    | false =>
      rw [show maskIgnored (p :: obj) = p :: maskIgnored obj from by
          unfold maskIgnored
          rw [List.map_cons, if_neg (by rw [hig]; simp)]]
      rw [show (p :: maskIgnored obj).filter (fun q => !q.1.ignored)
          = p :: (maskIgnored obj).filter (fun q => !q.1.ignored) from by
        simp [List.filter_cons, hig]]
      rw [show (p :: obj).filter (fun q => !q.1.ignored)
          = p :: obj.filter (fun q => !q.1.ignored) from by
        simp [List.filter_cons, hig]]
      rw [ih]

/-- In the masked record every ignored field holds its default value. -/
theorem maskIgnored_defaulted (obj : List (FieldSpec × List Nat)) :
    ∀ p ∈ maskIgnored obj, p.1.ignored = true → p.2 = p.1.dflt := by
  intro p hp hig
  unfold maskIgnored at hp
  rcases List.mem_map.mp hp with ⟨q, hq, hpq⟩
  subst hpq
  by_cases h : q.1.ignored = true
  · rw [if_pos h]
  · rw [if_neg h] at hig
    exact absurd hig h

/-- C8: a field carrying the explicit ignore marker is excluded from the
encoding — a value differing only in its ignored payloads encodes to the
identical word sequence, so the field contributes no words — no accessor is
generated for its name (resolution yields the panic arm, `none`), and
`decode_from_memory` on the stored bytes reconstructs the record with every
ignored field holding its type's default value regardless of what the value
carried, while all non-ignored fields round-trip exactly. -/
theorem ignored_fields_spec (obj₁ obj₂ : List (FieldSpec × List Nat))
    (nm : String) (addr : Nat)
    (hmap : obj₁.map Prod.fst = obj₂.map Prod.fst)
    (hfil : obj₁.filter (fun p => !p.1.ignored)
      = obj₂.filter (fun p => !p.1.ignored))
    (hnm : ∀ f ∈ activeFields (schemaOf obj₁), f.name ≠ nm)
    (hwf : ∀ p ∈ obj₂, ∀ s, p.1.staticLength = some s → p.2.length = s)
    (hw : ∀ p ∈ obj₂, ∀ w ∈ p.2, w < bfePrime)
    (hov : addr + (encodeObject obj₂).length < bfePrime) :
    encodeObject obj₁ = encodeObject obj₂ ∧
    getFieldStartWithJumpDistance (schemaOf obj₁) nm = none ∧
    getFieldCode (schemaOf obj₁) nm = none ∧
    decodeObject (schemaOf obj₁) (memOf addr (encodeObject obj₂)) addr
      = some (maskIgnored obj₁) ∧
    (maskIgnored obj₁).filter (fun p => !p.1.ignored)
      = obj₁.filter (fun p => !p.1.ignored) ∧
    ∀ p ∈ maskIgnored obj₁, p.1.ignored = true → p.2 = p.1.dflt := by
  have hlay : layoutOf obj₁ = layoutOf obj₂ := by
    unfold layoutOf
    rw [List.filter_reverse, List.filter_reverse, hfil]
  have henc : encodeObject obj₁ = encodeObject obj₂ := by
    unfold encodeObject
    rw [hlay]
  have hidx : fieldIndexOf (activeFields (schemaOf obj₁)) nm = none :=
    fieldIndexOf_none _ nm hnm
  have hschema : schemaOf obj₁ = schemaOf obj₂ := hmap
  refine ⟨henc, ?_, ?_, ?_, maskIgnored_filter obj₁,
    maskIgnored_defaulted obj₁⟩
  · unfold getFieldStartWithJumpDistance
    rw [hidx]
  · unfold getFieldCode
    rw [hidx]
  · have h := (decodeObject_spec obj₂ addr hwf hw hov).1
    rw [hschema, maskIgnored_congr obj₁ obj₂ hmap hfil]
    exact h

/-- Witness for C8 at the record `[(a,[5,7]), (i: ignored,[3,4]), (b,[9])]`
and the variant with corrupted ignored payload `[8,1]`, at address 100: both
encode as `[9, 2, 5, 7]` (no words for the ignored field), name `"i"` has no
accessor, and decoding yields the record with the ignored field defaulted to
`[0, 0]` and the other fields intact. -/
theorem ignored_fields_spec_witness :
    encodeObject igObj₁ = encodeObject igObj₂ ∧
    encodeObject igObj₂ = [9, 2, 5, 7] ∧
    getFieldStartWithJumpDistance (schemaOf igObj₁) "i" = none ∧
    getFieldCode (schemaOf igObj₁) "i" = none ∧
    decodeObject (schemaOf igObj₁) (memOf 100 (encodeObject igObj₂)) 100
      = some [(fieldA, [5, 7]), (fieldI, [0, 0]), (fieldB, [9])] := by
  have h := ignored_fields_spec igObj₁ igObj₂ "i" 100 (by decide) (by decide)
    (by decide)
    (by
      intro p hp s hs
      simp only [igObj₂, List.mem_cons, List.not_mem_nil, or_false] at hp
      rcases hp with rfl | rfl | rfl
      · exact absurd hs (by simp [fieldA])
      · simp only [fieldI, Option.some.injEq] at hs
        simp [← hs]
      · simp only [fieldB, Option.some.injEq] at hs
        simp [← hs])
    (by decide) (by decide)
  refine ⟨h.1, by decide, h.2.1, h.2.2.1, ?_⟩
  rw [h.2.2.2.1]
  rw [show maskIgnored igObj₁
    = [(fieldA, [5, 7]), (fieldI, [0, 0]), (fieldB, [9])] from by decide]

/-- C9: the benchmark routine maps over exactly the two workload classes,
generating the seeded initial state for each class, running the real machine
(`exec`) once per class, and recording the clock-cycle count together with
the table heights, keyed by the snippet's entrypoint name and the workload
class; the `rust_shadow` reference implementation is never invoked — the
output is invariant under replacing it by any function — and no equivalence
assertion occurs. -/
theorem bench_protocol (exec : VmState → BenchmarkExecResult)
    (seeds : BenchmarkCase → Nat) (f : FunctionShape) :
    bench exec seeds f =
      [⟨f.entrypoint,
        (exec (f.pseudorandomInitialState (seeds BenchmarkCase.commonCase)
          (some BenchmarkCase.commonCase))).cycleCount,
        (exec (f.pseudorandomInitialState (seeds BenchmarkCase.commonCase)
          (some BenchmarkCase.commonCase))).hashTableHeight,
        (exec (f.pseudorandomInitialState (seeds BenchmarkCase.commonCase)
          (some BenchmarkCase.commonCase))).u32TableHeight,
        BenchmarkCase.commonCase⟩,
       ⟨f.entrypoint,
        (exec (f.pseudorandomInitialState (seeds BenchmarkCase.worstCase)
          (some BenchmarkCase.worstCase))).cycleCount,
        (exec (f.pseudorandomInitialState (seeds BenchmarkCase.worstCase)
          (some BenchmarkCase.worstCase))).hashTableHeight,
        (exec (f.pseudorandomInitialState (seeds BenchmarkCase.worstCase)
          (some BenchmarkCase.worstCase))).u32TableHeight,
        BenchmarkCase.worstCase⟩] ∧
    (bench exec seeds f).length = 2 ∧
    (∀ r ∈ bench exec seeds f, r.name = f.entrypoint) ∧
    (∀ (s₁ s₂ : VmState → VmState),
      bench exec seeds ⟨f.entrypoint, f.pseudorandomInitialState, s₁⟩
        = bench exec seeds ⟨f.entrypoint, f.pseudorandomInitialState, s₂⟩) := by
  refine ⟨rfl, rfl, ?_, fun s₁ s₂ => rfl⟩
  intro r hr
  rcases List.mem_map.mp hr with ⟨c, _, rfl⟩
  rfl

end Tasm
